import Mathlib

/-!
# SimpleVector: a shallow embedding of `simple-vector/array_ptr.h` and `simple-vector/simple_vector.h`

Modelling conventions.

* An `ArrayPtr<Type>` is the block its `raw_ptr_` points to, as a list of cells; the empty list
  is `nullptr` (the constructor never allocates a block of length 0).
* `size_t` is taken to be 64 bits wide.  A size, an index or a requested block length is bounded
  by the length of a block on every run that does not leave a block, and no block of `2^63`
  cells can be allocated, so the arithmetic on them is exact natural-number arithmetic (the
  product `capacity_ * 2` of `PushBack` is formed only when `capacity_ <= size_`).  The
  recorded capacity is different: `capacity_ *= 2` in `Insert` doubles it without a matching
  allocation, so after one `PushBack` and 64 calls of `Insert` it wraps to 0 while the block has
  128 cells.  That product is therefore taken modulo `sizeModulus = 2^64`.
* Iterators are offsets from `begin()`.
* Reading or writing a cell outside the owned block is undefined behaviour in C++; every cell
  access of the model is checked against the block and such an access ends the operation in
  `Outcome.undefined`.  Forming the address `&items_[k]` touches no cell and is not an access.
* `new Type[n]{}` may throw `std::bad_alloc`; whether a request for `n` cells succeeds is given
  by an oracle `avail : Nat → Bool`.
* `Type{}` is `default`.
-/

set_option autoImplicit false

/-- Exceptions thrown by the code: `std::out_of_range` and `std::bad_alloc`. -/
inductive Exn where
  | out_of_range
  | bad_alloc
  deriving DecidableEq

/-- Result of running a member function on an object state `σ`: it returns `r` leaving the state
`s`, or an exception leaves the function with the object in state `s`, or a cell outside the
owned block was accessed, or an `assert` failed. -/
inductive Outcome (σ ρ : Type) where
  | ret (r : ρ) (s : σ)
  | thrown (e : Exn) (s : σ)
  | undefined
  | aborted
  deriving DecidableEq

/-- The state of the object once the call is over, on the two paths that leave one: a return
and a thrown exception. -/
def Outcome.after {σ ρ : Type} : Outcome σ ρ → Option σ
  | .ret _ s => some s
  | .thrown _ s => some s
  | .undefined => none
  | .aborted => none

/-- Number of values of `size_t` (64 bits): arithmetic that can wrap is taken modulo it. -/
def sizeModulus : Nat := 2 ^ 64

/-- The block owned by an `ArrayPtr`; `[]` is `raw_ptr_ == nullptr`. -/
abbrev ArrayPtr (α : Type) := List α

namespace ArrayPtr

variable {α : Type}

/-- Constructor `ArrayPtr(size_t size)`: no allocation for `size == 0`, else `new Type[size]{}`, which
throws (`none`) when the request cannot be served. -/
def create [Inhabited α] (avail : Nat → Bool) (size : Nat) : Option (ArrayPtr α) :=
  if size ≠ 0 then
    if avail size then some (List.replicate size default) else none
  else some []

/-- Read of `raw_ptr_[index]`; `none` outside the block. -/
def read (p : ArrayPtr α) (index : Nat) : Option α := p[index]?

/-- Write `raw_ptr_[index] = x`; `none` outside the block. -/
def write (p : ArrayPtr α) (index : Nat) (x : α) : Option (ArrayPtr α) :=
  if index < p.length then some (p.set index x) else none

end ArrayPtr

section Algorithms

variable {α : Type}

/-- Loop of `std::move(first, last, d_first)`: `while (first != last) *d_first++ = *first++`,
run for the `n` iterations that separate `first` from `last`. -/
def moveLoop (src : List α) : Nat → Nat → List α → Nat → Option (List α)
  | 0, _, dst, _ => some dst
  | n + 1, first, dst, d_first =>
    match ArrayPtr.read src first with
    | none => none
    | some x =>
      match ArrayPtr.write dst d_first x with
      | none => none
      | some dst1 => moveLoop src n (first + 1) dst1 (d_first + 1)

/-- The call `std::move(&src[first], &src[last], &dst[d_first])`; the range must be valid
(`first <= last`). -/
def stdMove (src : List α) (first last : Nat) (dst : List α) (d_first : Nat) : Option (List α) :=
  if last < first then none else moveLoop src (last - first) first dst d_first

/-- Loop of `std::move_backward(first, last, d_last)`:
`while (first != last) *(--d_last) = *(--last)`. -/
def moveBackwardLoop (src : List α) : Nat → Nat → List α → Nat → Option (List α)
  | 0, _, dst, _ => some dst
  | n + 1, last, dst, d_last =>
    if last = 0 ∨ d_last = 0 then none
    else
      match ArrayPtr.read src (last - 1) with
      | none => none
      | some x =>
        match ArrayPtr.write dst (d_last - 1) x with
        | none => none
        | some dst1 => moveBackwardLoop src n (last - 1) dst1 (d_last - 1)

/-- The call `std::move_backward(&src[first], &src[last], &dst[d_last])`. -/
def stdMoveBackward (src : List α) (first last : Nat) (dst : List α) (d_last : Nat) :
    Option (List α) :=
  if last < first then none else moveBackwardLoop src (last - first) last dst d_last

/-- Loop of `std::equal(first1, last1, first2)` with the element type's `==`:
`for (; first1 != last1; ++first1, ++first2) if (!(*first1 == *first2)) return false;`
then `return true`. -/
def equalLoop [BEq α] (b1 b2 : List α) : Nat → Nat → Nat → Option Bool
  | 0, _, _ => some true
  | n + 1, first1, first2 =>
    match ArrayPtr.read b1 first1, ArrayPtr.read b2 first2 with
    | some x, some y => if !(x == y) then some false else equalLoop b1 b2 n (first1 + 1) (first2 + 1)
    | _, _ => none

/-- The call `std::equal(&b1[first1], &b1[last1], &b2[first2])`. -/
def stdEqual [BEq α] (b1 : List α) (first1 last1 : Nat) (b2 : List α) (first2 : Nat) :
    Option Bool :=
  if last1 < first1 then none else equalLoop b1 b2 (last1 - first1) first1 first2

/-- Loop of `std::lexicographical_compare(first1, last1, first2, last2, comp)`:
`for (; first1 != last1 && first2 != last2; ++first1, ++first2)`
`{ if (comp(*first1, *first2)) return true; if (comp(*first2, *first1)) return false; }`
then `return first1 == last1 && first2 != last2`.  The first argument bounds the number of
iterations by `last1 - first1`. -/
def lexLoop (comp : α → α → Bool) (b1 : List α) (last1 : Nat) (b2 : List α) (last2 : Nat) :
    Nat → Nat → Nat → Option Bool
  | 0, first1, first2 =>
    if first1 ≠ last1 ∧ first2 ≠ last2 then none
    else some (decide (first1 = last1) && decide (first2 ≠ last2))
  | n + 1, first1, first2 =>
    if first1 ≠ last1 ∧ first2 ≠ last2 then
      match ArrayPtr.read b1 first1, ArrayPtr.read b2 first2 with
      | some x, some y =>
        if comp x y then some true
        else if comp y x then some false
        else lexLoop comp b1 last1 b2 last2 n (first1 + 1) (first2 + 1)
      | _, _ => none
    else some (decide (first1 = last1) && decide (first2 ≠ last2))

/-- The call `std::lexicographical_compare(&b1[first1], &b1[last1], &b2[first2], &b2[last2],
comp)`. -/
def stdLexicographicalCompare (comp : α → α → Bool) (b1 : List α) (first1 last1 : Nat)
    (b2 : List α) (first2 last2 : Nat) : Option Bool :=
  if last1 < first1 ∨ last2 < first2 then none
  else lexLoop comp b1 last1 b2 last2 (last1 - first1) first1 first2

/-- Loop of `std::fill(first, last, value)`: `for (; first != last; ++first) *first = value`,
run for the `n` iterations that separate `first` from `last`. -/
def fillLoop (value : α) : Nat → Nat → List α → Option (List α)
  | 0, _, dst => some dst
  | n + 1, first, dst =>
    match ArrayPtr.write dst first value with
    | none => none
    | some dst1 => fillLoop value n (first + 1) dst1

/-- The call `std::fill(&dst[first], &dst[last], value)`. -/
def stdFill (dst : List α) (first last : Nat) (value : α) : Option (List α) :=
  if last < first then none else fillLoop value (last - first) first dst

end Algorithms

/-- The three data members of `SimpleVector<Type>` with their default member initialisers:
the default value of the structure is the state after `SimpleVector() noexcept = default`. -/
structure SimpleVector (α : Type) where
  items_ : ArrayPtr α := []
  size_ : Nat := 0
  capacity_ : Nat := 0
  deriving DecidableEq

namespace SimpleVector

variable {α : Type}

/-- Member `GetSize()`. -/
def GetSize (v : SimpleVector α) : Nat := v.size_

/-- Member `GetCapacity()`. -/
def GetCapacity (v : SimpleVector α) : Nat := v.capacity_

/-- Member `IsEmpty()`: `size_ == 0 ? true : false`. -/
def IsEmpty (v : SimpleVector α) : Bool := if v.size_ = 0 then true else false

/-- The values an iteration over `[begin(), end())` reads, that is the cells `0 .. size_ - 1`
of the block; `none` when that range leaves the block. -/
def elems (v : SimpleVector α) : Option (List α) :=
  if v.size_ ≤ v.items_.length then some (v.items_.take v.size_) else none

/-- Private member `RethrowItems(space)`: `ArrayPtr temp(space); std::move(begin(), end(), &temp[0]);
items_.swap(temp);`. -/
def RethrowItems [Inhabited α] (avail : Nat → Bool) (space : Nat) (v : SimpleVector α) :
    Outcome (SimpleVector α) Unit :=
  match ArrayPtr.create avail space with
  | none => .thrown .bad_alloc v
  | some temp =>
    match stdMove v.items_ 0 v.size_ temp 0 with
    | none => .undefined
    | some temp1 => .ret () { v with items_ := temp1 }

/-- Private member `RethrowItemsFromIterable(other, space)` where `[other.begin(), other.end())` is the range
of cells `0 .. otherLen - 1` of `otherBlock`:
`ArrayPtr temp(space); std::move(other.begin(), other.end(), &temp[0]); items_.swap(temp);
size_ = space; capacity_ = space;`. -/
def RethrowItemsFromIterable [Inhabited α] (avail : Nat → Bool) (otherBlock : List α)
    (otherLen : Nat) (space : Nat) (v : SimpleVector α) : Outcome (SimpleVector α) Unit :=
  match ArrayPtr.create avail space with
  | none => .thrown .bad_alloc v
  | some temp =>
    match stdMove otherBlock 0 otherLen temp 0 with
    | none => .undefined
    | some temp1 => .ret () { items_ := temp1, size_ := space, capacity_ := space }

/-- Member `PushBack(Type&& item)`. -/
def PushBack [Inhabited α] (avail : Nat → Bool) (item : α) (v : SimpleVector α) :
    Outcome (SimpleVector α) Unit :=
  if v.size_ < v.capacity_ then
    match ArrayPtr.write v.items_ v.size_ item with
    | none => .undefined
    | some b => .ret () { v with items_ := b, size_ := v.size_ + 1 }
  else
    let new_capacity := if !v.IsEmpty then v.capacity_ * 2 else 1
    match RethrowItems avail new_capacity v with
    | .ret _ v1 =>
      match ArrayPtr.write v1.items_ v1.size_ item with
      | none => .undefined
      | some b => .ret () { items_ := b, size_ := v1.size_ + 1, capacity_ := new_capacity }
    | o => o

/-- Member `PopBack()`. -/
def PopBack (v : SimpleVector α) : SimpleVector α :=
  if !v.IsEmpty then { v with size_ := v.size_ - 1 } else v

/-- Member `At(index)`: `index < size_ ? items_[index] : throw std::out_of_range(...)`.  No member is
assigned on either path. -/
def At (v : SimpleVector α) (index : Nat) : Outcome (SimpleVector α) α :=
  if index < v.size_ then
    match ArrayPtr.read v.items_ index with
    | some x => .ret x v
    | none => .undefined
  else .thrown .out_of_range v

/-- Member `Clear()`. -/
def Clear (v : SimpleVector α) : SimpleVector α := { v with size_ := 0 }

/-- Member `Resize(new_size)`. -/
def Resize [Inhabited α] (avail : Nat → Bool) (new_size : Nat) (v : SimpleVector α) :
    Outcome (SimpleVector α) Unit :=
  if new_size ≤ v.size_ then .ret () { v with size_ := new_size }
  else
    match RethrowItems avail new_size v with
    | .ret _ v1 => .ret () { v1 with size_ := new_size, capacity_ := new_size }
    | o => o

/-- Member `Reserve(new_capacity)`. -/
def Reserve [Inhabited α] (avail : Nat → Bool) (new_capacity : Nat) (v : SimpleVector α) :
    Outcome (SimpleVector α) Unit :=
  if new_capacity > v.capacity_ then
    match RethrowItems avail new_capacity v with
    | .ret _ v1 => .ret () { v1 with capacity_ := new_capacity }
    | o => o
  else .ret () v

/-- Member `Insert(pos, value)` with `pos` the offset of the iterator from `begin()`; the value
returned is the offset of the returned iterator from the new `begin()`.  The last statement
`capacity_ *= 2` is a `size_t` product and wraps. -/
def Insert [Inhabited α] (avail : Nat → Bool) (pos : Nat) (value : α) (v : SimpleVector α) :
    Outcome (SimpleVector α) Nat :=
  if ¬ (pos ≤ v.size_) then .aborted
  else if v.IsEmpty then
    match PushBack avail value v with
    | .ret _ v1 => .ret 0 v1
    | .thrown e s => .thrown e s
    | .undefined => .undefined
    | .aborted => .aborted
  else
    match (ArrayPtr.create avail (2 * v.GetSize) : Option (ArrayPtr α)) with
    | none => .thrown .bad_alloc v
    | some temp =>
      let delta := pos
      match stdMove v.items_ 0 pos temp 0 with
      | none => .undefined
      | some temp1 =>
        match ArrayPtr.write temp1 pos value with
        | none => .undefined
        | some temp2 =>
          match stdMoveBackward v.items_ pos v.size_ temp2 (v.GetSize + 1) with
          | none => .undefined
          | some temp3 =>
            .ret delta { items_ := temp3, size_ := v.size_ + 1,
                         capacity_ := (v.capacity_ * 2) % sizeModulus }

/-- Member `Erase(pos)` with `pos` the offset of the iterator from `begin()`; the value returned is
the offset of the returned iterator from the new `begin()`.  `capacity_` is not assigned. -/
def Erase [Inhabited α] (avail : Nat → Bool) (pos : Nat) (v : SimpleVector α) :
    Outcome (SimpleVector α) Nat :=
  if ¬ (pos < v.size_) then .aborted
  else
    match (ArrayPtr.create avail (v.GetSize - 1) : Option (ArrayPtr α)) with
    | none => .thrown .bad_alloc v
    | some temp =>
      let delta := pos
      match stdMove v.items_ 0 pos temp 0 with
      | none => .undefined
      | some temp1 =>
        match stdMoveBackward v.items_ (pos + 1) v.size_ temp1 (v.GetSize - 1) with
        | none => .undefined
        | some temp2 => .ret delta { v with items_ := temp2, size_ := v.size_ - 1 }

/-- Copy constructor `SimpleVector(const SimpleVector& other)`: the members get their default
initialisers and the body runs `RethrowItemsFromIterable(other, other.GetSize())`.  The state
is the pair (constructed object, `other`); `other` is `const` and is returned as it was. -/
def copyConstruct [Inhabited α] (avail : Nat → Bool) (other : SimpleVector α) :
    Outcome (SimpleVector α × SimpleVector α) Unit :=
  match RethrowItemsFromIterable avail other.items_ other.size_ other.GetSize {} with
  | .ret _ v1 => .ret () (v1, other)
  | .thrown e s => .thrown e (s, other)
  | .undefined => .undefined
  | .aborted => .aborted

/-- Copy assignment `operator=(const SimpleVector& other)` for `this` and `other` two distinct
objects: `RethrowItemsFromIterable(other, other.GetSize())`.  The state is the pair
(`*this`, `other`). -/
def copyAssign [Inhabited α] (avail : Nat → Bool) (self other : SimpleVector α) :
    Outcome (SimpleVector α × SimpleVector α) Unit :=
  match RethrowItemsFromIterable avail other.items_ other.size_ other.GetSize self with
  | .ret _ v1 => .ret () (v1, other)
  | .thrown e s => .thrown e (s, other)
  | .undefined => .undefined
  | .aborted => .aborted

/-- Constructor `SimpleVector(ReserveProxyObj capacity_to_reserve)`: on the default members,
`Reserve(capacity_to_reserve.ReserveCapacity()); size_ = 0;`. -/
def reserveConstruct [Inhabited α] (avail : Nat → Bool) (capacity_to_reserve : Nat) :
    Outcome (SimpleVector α) Unit :=
  match Reserve avail capacity_to_reserve ({} : SimpleVector α) with
  | .ret _ v1 => .ret () { v1 with size_ := 0 }
  | o => o

/-- Constructor `SimpleVector(size_t size, const Type& value = Type{})`:
`ArrayPtr temp(size); items_.swap(temp); size_ = size; capacity_ = size;
if (value != Type{}) std::fill(begin(), end(), value);` with `ne` the `!=` of the element
type. -/
def sizeConstruct [Inhabited α] (ne : α → α → Bool) (avail : Nat → Bool) (size : Nat)
    (value : α) : Outcome (SimpleVector α) Unit :=
  match (ArrayPtr.create avail size : Option (ArrayPtr α)) with
  | none => .thrown .bad_alloc {}
  | some temp =>
    if ne value default then
      match stdFill temp 0 size value with
      | none => .undefined
      | some b => .ret () { items_ := b, size_ := size, capacity_ := size }
    else .ret () { items_ := temp, size_ := size, capacity_ := size }

/-- Constructor `SimpleVector(std::initializer_list<Type> init)`:
`RethrowItemsFromIterable(init, init.size())` on the default members. -/
def listConstruct [Inhabited α] (avail : Nat → Bool) (init : List α) :
    Outcome (SimpleVector α) Unit :=
  RethrowItemsFromIterable avail init init.length init.length {}

/-- Move constructor `SimpleVector(SimpleVector&& other)`:
`ArrayPtr temp(other.GetSize()); std::move(other.begin(), other.end(), &temp[0]);
items_.swap(temp); size_ = other.GetSize(); capacity_ = other.GetCapacity(); other.Clear();`.
The state is the pair (constructed object, `other`); the cells of `other` keep the values
they were moved from. -/
def moveConstruct [Inhabited α] (avail : Nat → Bool) (other : SimpleVector α) :
    Outcome (SimpleVector α × SimpleVector α) Unit :=
  match (ArrayPtr.create avail other.GetSize : Option (ArrayPtr α)) with
  | none => .thrown .bad_alloc ({}, other)
  | some temp =>
    match stdMove other.items_ 0 other.size_ temp 0 with
    | none => .undefined
    | some temp1 =>
      .ret () ({ items_ := temp1, size_ := other.GetSize, capacity_ := other.GetCapacity },
        other.Clear)

/-- Member `swap(SimpleVector& other)`: the three members are exchanged. -/
def swap (self other : SimpleVector α) : SimpleVector α × SimpleVector α :=
  ({ items_ := other.items_, size_ := other.size_, capacity_ := other.capacity_ },
   { items_ := self.items_, size_ := self.size_, capacity_ := self.capacity_ })

/-- Free function `operator==`: `(lhs.GetSize() != rhs.GetSize()) ? false :
((lhs.GetSize() == rhs.GetSize()) && std::equal(lhs.begin(), lhs.end(), rhs.begin()))`. -/
def opEq [BEq α] (lhs rhs : SimpleVector α) : Option Bool :=
  if lhs.GetSize ≠ rhs.GetSize then some false
  else if lhs.GetSize = rhs.GetSize then stdEqual lhs.items_ 0 lhs.size_ rhs.items_ 0
  else some false

/-- Free function `operator!=`: `!(lhs == rhs)`. -/
def opNe [BEq α] (lhs rhs : SimpleVector α) : Option Bool :=
  (opEq lhs rhs).map (fun b => !b)

/-- Free function `operator<`: `std::lexicographical_compare` with the comparator `a < b`. -/
def opLt (lt : α → α → Bool) (lhs rhs : SimpleVector α) : Option Bool :=
  stdLexicographicalCompare (fun a b => lt a b) lhs.items_ 0 lhs.size_ rhs.items_ 0 rhs.size_

/-- Free function `operator>`: `std::lexicographical_compare` with the comparator `a > b`. -/
def opGt (gt : α → α → Bool) (lhs rhs : SimpleVector α) : Option Bool :=
  stdLexicographicalCompare (fun a b => gt a b) lhs.items_ 0 lhs.size_ rhs.items_ 0 rhs.size_

/-- Member `operator[](index)` used as a read: `assert(index < size_); return items_[index];`. -/
def opIndex (v : SimpleVector α) (index : Nat) : Outcome (SimpleVector α) α :=
  if ¬ (index < v.size_) then .aborted
  else
    match ArrayPtr.read v.items_ index with
    | some x => .ret x v
    | none => .undefined

/-- Member `operator[](index)` of a mutable container followed by an assignment through the
reference it returns, `v[index] = x`. -/
def opIndexAssign (index : Nat) (x : α) (v : SimpleVector α) : Outcome (SimpleVector α) Unit :=
  if ¬ (index < v.size_) then .aborted
  else
    match ArrayPtr.write v.items_ index x with
    | some b => .ret () { v with items_ := b }
    | none => .undefined

/-- An allocation oracle that serves every request. -/
def unlimited : Nat → Bool := fun _ => true

/-- An allocation oracle that serves no request. -/
def exhausted : Nat → Bool := fun _ => false

/-- How `PushBack` is run on each value of a list in turn, stopping at the first call that does
not return. -/
def pushAll [Inhabited α] (avail : Nat → Bool) : List α → SimpleVector α →
    Outcome (SimpleVector α) Unit
  | [], v => .ret () v
  | x :: xs, v =>
    match PushBack avail x v with
    | .ret _ v1 => pushAll avail xs v1
    | o => o

/-- How `Insert(begin(), x)` is run on each value of a list in turn, stopping at the first call
that does not return. -/
def insertAll [Inhabited α] (avail : Nat → Bool) : List α → SimpleVector α →
    Outcome (SimpleVector α) Unit
  | [], v => .ret () v
  | x :: xs, v =>
    match Insert avail 0 x v with
    | .ret _ v1 => insertAll avail xs v1
    | .thrown e s => .thrown e s
    | .undefined => .undefined
    | .aborted => .aborted

/-- The states a container can be in: the ones the constructors produce and the ones the
public operations leave, starting from such states, whatever the allocator answers at each
call.  `Insert` and `Erase` with a position outside their range end in a failed `assert` and
leave no state. -/
inductive Reachable [Inhabited α] : SimpleVector α → Prop where
  | default_ctor : Reachable {}
  | reserve_ctor (avail : Nat → Bool) (n : Nat) (v : SimpleVector α) :
      reserveConstruct avail n = .ret () v → Reachable v
  | size_ctor (ne : α → α → Bool) (avail : Nat → Bool) (n : Nat) (x : α) (v : SimpleVector α) :
      sizeConstruct ne avail n x = .ret () v → Reachable v
  | list_ctor (avail : Nat → Bool) (init : List α) (v : SimpleVector α) :
      listConstruct avail init = .ret () v → Reachable v
  | copy_ctor (avail : Nat → Bool) (o v o1 : SimpleVector α) :
      Reachable o → copyConstruct avail o = .ret () (v, o1) → Reachable v
  | move_ctor_new (avail : Nat → Bool) (o v o1 : SimpleVector α) :
      Reachable o → moveConstruct avail o = .ret () (v, o1) → Reachable v
  | move_ctor_source (avail : Nat → Bool) (o v o1 : SimpleVector α) :
      Reachable o → moveConstruct avail o = .ret () (v, o1) → Reachable o1
  | copy_assign (avail : Nat → Bool) (v o v1 o1 : SimpleVector α) :
      Reachable v → Reachable o → (copyAssign avail v o).after = some (v1, o1) → Reachable v1
  | push_back (avail : Nat → Bool) (x : α) (v v1 : SimpleVector α) :
      Reachable v → (PushBack avail x v).after = some v1 → Reachable v1
  | pop_back (v : SimpleVector α) : Reachable v → Reachable v.PopBack
  | clear (v : SimpleVector α) : Reachable v → Reachable v.Clear
  | resize (avail : Nat → Bool) (n : Nat) (v v1 : SimpleVector α) :
      Reachable v → (Resize avail n v).after = some v1 → Reachable v1
  | reserve (avail : Nat → Bool) (n : Nat) (v v1 : SimpleVector α) :
      Reachable v → (Reserve avail n v).after = some v1 → Reachable v1
  | insert (avail : Nat → Bool) (pos : Nat) (x : α) (v v1 : SimpleVector α) :
      Reachable v → (Insert avail pos x v).after = some v1 → Reachable v1
  | erase (avail : Nat → Bool) (pos : Nat) (v v1 : SimpleVector α) :
      Reachable v → (Erase avail pos v).after = some v1 → Reachable v1
  | assign (index : Nat) (x : α) (v v1 : SimpleVector α) :
      Reachable v → (opIndexAssign index x v).after = some v1 → Reachable v1
  | swap_this (v o : SimpleVector α) : Reachable v → Reachable o → Reachable (swap v o).1
  | swap_other (v o : SimpleVector α) : Reachable v → Reachable o → Reachable (swap v o).2

end SimpleVector

section AlgorithmLemmas

variable {α : Type}

theorem moveLoop_eq (src : List α) : ∀ (n first : Nat) (dst : List α) (d : Nat),
    first + n ≤ src.length → d + n ≤ dst.length →
    moveLoop src n first dst d
      = some (dst.take d ++ (src.drop first).take n ++ dst.drop (d + n)) := by
  intro n
  induction n with
  | zero =>
    intro first dst d _ _
    simp [moveLoop]
  | succ n ih =>
    intro first dst d h1 h2
    have hf : first < src.length := by omega
    have hd : d < dst.length := by omega
    have hlen : (dst.set d src[first]).length = dst.length := by simp
    simp only [moveLoop, ArrayPtr.read, ArrayPtr.write, List.getElem?_eq_getElem hf, hd, if_true]
    rw [ih (first + 1) (dst.set d src[first]) (d + 1) (by omega) (by omega)]
    congr 1
    rw [List.drop_eq_getElem_cons hf, List.take_succ_cons]
    rw [List.set_eq_take_append_cons_drop, if_pos hd]
    have e1 : List.take (d + 1) (List.take d dst ++ src[first] :: List.drop (d + 1) dst)
        = List.take d dst ++ [src[first]] := by
      rw [List.take_append_eq_append_take]
      simp [List.length_take, Nat.min_eq_left (Nat.le_of_lt hd)]
    have e2 : List.drop (d + 1 + n) (List.take d dst ++ src[first] :: List.drop (d + 1) dst)
        = List.drop (d + (n + 1)) dst := by
      rw [List.drop_append_eq_append_drop]
      simp [List.length_take, Nat.min_eq_left (Nat.le_of_lt hd)]
      have : d + 1 + n - d = n + 1 := by omega
      rw [List.drop_eq_nil_of_le (by simp; omega)]
      simp [this]
      congr 1
      omega
    rw [e1, e2]
    simp

end AlgorithmLemmas

section BackwardMoveLemmas

variable {α : Type}

theorem moveBackwardLoop_eq (src : List α) : ∀ (n last : Nat) (dst : List α) (d : Nat),
    n ≤ last → last ≤ src.length → n ≤ d → d ≤ dst.length →
    moveBackwardLoop src n last dst d
      = some (dst.take (d - n) ++ (src.drop (last - n)).take n ++ dst.drop d) := by
  intro n
  induction n with
  | zero =>
    intro last dst d _ _ _ _
    simp [moveBackwardLoop]
  | succ n ih =>
    intro last dst d h1 h2 h3 h4
    obtain ⟨l, rfl⟩ : ∃ l, last = l + 1 := ⟨last - 1, by omega⟩
    obtain ⟨e, rfl⟩ : ∃ e, d = e + 1 := ⟨d - 1, by omega⟩
    have hl : l < src.length := by omega
    have hd : e < dst.length := by omega
    simp only [moveBackwardLoop, ArrayPtr.read, ArrayPtr.write, Nat.add_sub_cancel,
      List.getElem?_eq_getElem hl, hd, if_true, Nat.succ_ne_zero, or_self, if_false]
    rw [ih l (dst.set e src[l]) e (by omega) (by omega) (by omega) (by simp; omega)]
    congr 1
    have k1 : e + 1 - (n + 1) = e - n := by omega
    have k2 : l + 1 - (n + 1) = l - n := by omega
    rw [k1, k2, List.set_eq_take_append_cons_drop, if_pos hd]
    have t1 : List.take (e - n) (List.take e dst ++ src[l] :: List.drop (e + 1) dst)
        = List.take (e - n) dst := by
      rw [List.take_append_of_le_length (by simp; omega), List.take_take]
      congr 1
      omega
    have t2 : List.drop e (List.take e dst ++ src[l] :: List.drop (e + 1) dst)
        = src[l] :: List.drop (e + 1) dst :=
      List.drop_left' (by simp; omega)
    have t3 : List.take (n + 1) (List.drop (l - n) src)
        = List.take n (List.drop (l - n) src) ++ [src[l]] := by
      rw [List.take_succ, List.getElem?_drop]
      have : l - n + n = l := by omega
      rw [this, List.getElem?_eq_getElem hl]
      rfl
    rw [t1, t2, t3]
    simp

end BackwardMoveLemmas

section OperationLemmas

variable {α : Type}

theorem set_append_replicate (l : List α) (n k : Nat) (d x : α) (hn : n = l.length)
    (hk : 0 < k) :
    (l ++ List.replicate k d).set n x = l ++ x :: List.replicate (k - 1) d := by
  subst hn
  obtain ⟨m, rfl⟩ : ∃ m, k = m + 1 := ⟨k - 1, by omega⟩
  rw [List.set_append_right _ _ (Nat.le_refl _)]
  simp [List.replicate_succ]

theorem take_succ_set (l : List α) (n : Nat) (x : α) (h : n < l.length) :
    (l.set n x).take (n + 1) = l.take n ++ [x] := by
  rw [List.set_eq_take_append_cons_drop, if_pos h, List.take_append_eq_append_take]
  simp [List.length_take, Nat.min_eq_left (Nat.le_of_lt h)]

theorem take_append_cons (l t : List α) (x : α) (n : Nat) (h : n = l.length + 1) :
    (l ++ x :: t).take n = l ++ [x] := by
  have e : l ++ x :: t = (l ++ [x]) ++ t := by simp
  rw [e]
  exact List.take_left' (by simp [h])

theorem stdMove_eq (src : List α) (first last : Nat) (dst : List α) (d : Nat)
    (h0 : first ≤ last) (h1 : last ≤ src.length) (h2 : d + (last - first) ≤ dst.length) :
    stdMove src first last dst d
      = some (dst.take d ++ (src.drop first).take (last - first)
          ++ dst.drop (d + (last - first))) := by
  unfold stdMove
  rw [if_neg (by omega)]
  exact moveLoop_eq src (last - first) first dst d (by omega) h2

theorem stdMove_zero (src : List α) (n : Nat) (dst : List α)
    (h1 : n ≤ src.length) (h2 : n ≤ dst.length) :
    stdMove src 0 n dst 0 = some (src.take n ++ dst.drop n) := by
  rw [stdMove_eq src 0 n dst 0 (Nat.zero_le _) h1 (by omega)]
  simp

theorem stdMoveBackward_eq (src : List α) (first last : Nat) (dst : List α) (d : Nat)
    (h0 : first ≤ last) (h1 : last ≤ src.length) (h2 : last - first ≤ d)
    (h3 : d ≤ dst.length) :
    stdMoveBackward src first last dst d
      = some (dst.take (d - (last - first)) ++ (src.drop first).take (last - first)
          ++ dst.drop d) := by
  unfold stdMoveBackward
  rw [if_neg (by omega), moveBackwardLoop_eq src (last - first) last dst d (by omega) h1 h2 h3]
  have : last - (last - first) = first := by omega
  rw [this]

theorem ArrayPtr.create_eq [Inhabited α] (avail : Nat → Bool) (n : Nat)
    (h : n = 0 ∨ avail n = true) :
    (ArrayPtr.create avail n : Option (ArrayPtr α)) = some (List.replicate n default) := by
  unfold ArrayPtr.create
  by_cases hn : n = 0
  · simp [hn]
  · rcases h with h | h
    · exact absurd h hn
    · simp [hn, h]

namespace SimpleVector

theorem RethrowItems_eq [Inhabited α] (avail : Nat → Bool) (space : Nat) (v : SimpleVector α)
    (ha : space = 0 ∨ avail space = true) (hs : v.size_ ≤ v.items_.length)
    (hsp : v.size_ ≤ space) :
    RethrowItems avail space v
      = .ret () { v with items_ := v.items_.take v.size_
                    ++ List.replicate (space - v.size_) default } := by
  unfold RethrowItems
  rw [ArrayPtr.create_eq avail space ha]
  simp only
  rw [stdMove_zero _ _ _ hs (by simp; omega)]
  simp

theorem PushBack_spare [Inhabited α] (avail : Nat → Bool) (item : α) (v : SimpleVector α)
    (hc : v.size_ < v.capacity_) (hb : v.size_ < v.items_.length) :
    PushBack avail item v
      = .ret () { v with items_ := v.items_.set v.size_ item, size_ := v.size_ + 1 } := by
  unfold PushBack
  simp [hc, ArrayPtr.write, hb]

theorem PushBack_grow [Inhabited α] (avail : Nat → Bool) (item : α) (v : SimpleVector α)
    (new_capacity : Nat)
    (hn : new_capacity = if v.size_ ≠ 0 then v.capacity_ * 2 else 1)
    (hc : ¬ v.size_ < v.capacity_) (hb : v.size_ ≤ v.items_.length)
    (hlt : v.size_ < new_capacity) (ha : avail new_capacity = true) :
    PushBack avail item v
      = .ret () { items_ := v.items_.take v.size_ ++ item ::
                    List.replicate (new_capacity - v.size_ - 1) default,
                  size_ := v.size_ + 1, capacity_ := new_capacity } := by
  unfold PushBack
  have hn2 : (if (!v.IsEmpty) = true then v.capacity_ * 2 else 1) = new_capacity := by
    rw [hn]
    unfold IsEmpty
    by_cases h0 : v.size_ = 0 <;> simp [h0]
  simp only [hc, if_false, hn2]
  rw [RethrowItems_eq avail new_capacity v (Or.inr ha) hb (by omega)]
  simp only [ArrayPtr.write]
  rw [if_pos (by simp; omega)]
  simp only []
  rw [set_append_replicate _ _ _ _ _ (by simp; omega) (by omega)]

end SimpleVector

end OperationLemmas

section PushSequence

variable {α : Type}

namespace SimpleVector

theorem pushAll_append [Inhabited α] (avail : Nat → Bool) (xs : List α) (x : α) :
    ∀ v : SimpleVector α, pushAll avail (xs ++ [x]) v =
      match pushAll avail xs v with
      | .ret _ v1 => PushBack avail x v1
      | o => o := by
  induction xs with
  | nil =>
    intro v
    simp only [List.nil_append, pushAll]
    cases PushBack avail x v <;> rfl
  | cons y ys ih =>
    intro v
    simp only [List.cons_append, pushAll]
    cases PushBack avail y v with
    | ret r s => exact ih s
    | thrown e s => rfl
    | undefined => rfl
    | aborted => rfl

theorem pushAll_default_inv [Inhabited α] (avail : Nat → Bool) (ha : ∀ n, avail n = true)
    (xs : List α) :
    ∃ v : SimpleVector α, pushAll avail xs {} = .ret () v ∧ v.items_.length = v.capacity_
      ∧ v.size_ = xs.length ∧ v.items_.take v.size_ = xs
      ∧ (xs = [] → v.capacity_ = 0)
      ∧ (xs ≠ [] → ∃ k, v.capacity_ = 2 ^ k ∧ xs.length ≤ 2 ^ k
            ∧ (k = 0 ∨ 2 ^ (k - 1) < xs.length)) := by
  induction xs using List.reverseRecOn with
  | nil => exact ⟨{}, rfl, rfl, rfl, rfl, fun _ => rfl, fun h => absurd rfl h⟩
  | append_singleton ys x ih =>
    obtain ⟨v, hv, hlen, hsz, htk, h0, hk⟩ := ih
    rw [pushAll_append, hv]
    simp only
    by_cases hc : v.size_ < v.capacity_
    · -- spare capacity: the block is written in place
      have hys : ys ≠ [] := by
        intro h
        have := h0 h
        omega
      obtain ⟨k, hk1, hk2, hk3⟩ := hk hys
      rw [PushBack_spare avail x v hc (by omega)]
      refine ⟨_, rfl, by simpa using hlen, by simp [hsz], ?_, by simp, fun _ => ⟨k, hk1, ?_, ?_⟩⟩
      · simp only
        rw [take_succ_set _ _ _ (by omega), htk]
      · simp only [List.length_append, List.length_singleton]
        omega
      · rcases hk3 with h | h
        · exact Or.inl h
        · right
          simp only [List.length_append, List.length_singleton]
          omega
    · -- no spare capacity: a block of the new capacity is installed
      have hcap : v.capacity_ ≤ v.size_ := Nat.le_of_not_lt hc
      by_cases hys : ys = []
      · have hz : v.size_ = 0 := by simp [hsz, hys]
        have hcz : v.capacity_ = 0 := h0 hys
        rw [PushBack_grow avail x v 1 (by simp [hz]) hc (by omega) (by omega) (ha 1)]
        refine ⟨_, rfl, ?_, by simp [hsz], ?_, by simp, fun _ => ⟨0, rfl, ?_, Or.inl rfl⟩⟩
        · simp [hz]
        · simp [hz, hys]
        · simp [hys]
      · obtain ⟨k, hk1, hk2, hk3⟩ := hk hys
        have hpos : 0 < ys.length := List.length_pos.mpr hys
        have hsz0 : v.size_ ≠ 0 := by omega
        have hpow : 2 ^ (k + 1) = 2 ^ k * 2 := Nat.pow_succ 2 k
        rw [PushBack_grow avail x v (v.capacity_ * 2) (by simp [hsz0]) hc (by omega) (by omega)
          (ha _)]
        refine ⟨_, rfl, ?_, by simp [hsz], ?_, by simp, fun _ => ⟨k + 1, ?_, ?_, Or.inr ?_⟩⟩
        · simp only [List.length_append, List.length_take, List.length_cons,
            List.length_replicate]
          omega
        · simp only
          rw [take_append_cons _ _ _ _ (by simp; omega), htk]
        · simp only
          omega
        · simp only [List.length_append, List.length_singleton]
          omega
        · simp only [List.length_append, List.length_singleton, Nat.add_sub_cancel]
          omega

end SimpleVector

end PushSequence

section InsertErase

variable {α : Type}

theorem drop_append_cons_replicate (l : List α) (x d : α) (k n : Nat) (h : l.length < n) :
    (l ++ x :: List.replicate k d).drop n = List.replicate (k - (n - l.length - 1)) d := by
  rw [List.drop_append_eq_append_drop, List.drop_eq_nil_of_le (Nat.le_of_lt h), List.nil_append]
  obtain ⟨m, hm⟩ : ∃ m, n - l.length = m + 1 := ⟨n - l.length - 1, by omega⟩
  rw [hm, List.drop_succ_cons, List.drop_replicate]
  congr 1

namespace SimpleVector

theorem Erase_eq [Inhabited α] (avail : Nat → Bool) (pos : Nat) (v : SimpleVector α)
    (hp : pos < v.size_) (hb : v.size_ ≤ v.items_.length)
    (ha : v.size_ - 1 = 0 ∨ avail (v.size_ - 1) = true) :
    Erase avail pos v
      = .ret pos { items_ := (v.items_.take v.size_).take pos
                      ++ (v.items_.take v.size_).drop (pos + 1),
                    size_ := v.size_ - 1, capacity_ := v.capacity_ } := by
  unfold Erase
  rw [if_neg (by omega)]
  simp only [GetSize]
  rw [ArrayPtr.create_eq avail _ ha]
  simp only
  rw [stdMove_zero _ _ _ (by omega) (by simp; omega)]
  simp only
  rw [stdMoveBackward_eq _ _ _ _ _ (by omega) hb (by omega) (by simp; omega)]
  have e1 : v.size_ - 1 - (v.size_ - (pos + 1)) = pos := by omega
  have e2 : List.take pos (List.take pos v.items_
      ++ List.drop pos (List.replicate (v.size_ - 1) (default : α))) = List.take pos v.items_ :=
    List.take_left' (by simp; omega)
  have e3 : List.drop (v.size_ - 1) (List.take pos v.items_
      ++ List.drop pos (List.replicate (v.size_ - 1) (default : α))) = [] :=
    List.drop_eq_nil_of_le (by simp; omega)
  have e4 : List.take pos (List.take v.size_ v.items_) = List.take pos v.items_ := by
    rw [List.take_take, Nat.min_eq_left (Nat.le_of_lt hp)]
  rw [e1, e2, e3, e4, List.drop_take, List.append_nil]

theorem Insert_eq [Inhabited α] (avail : Nat → Bool) (pos : Nat) (value : α)
    (v : SimpleVector α) (hp : pos ≤ v.size_) (hne : v.size_ ≠ 0)
    (hb : v.size_ ≤ v.items_.length) (ha : avail (2 * v.size_) = true) :
    Insert avail pos value v
      = .ret pos { items_ := ((v.items_.take v.size_).take pos
                      ++ value :: (v.items_.take v.size_).drop pos)
                      ++ List.replicate (v.size_ - 1) default,
                    size_ := v.size_ + 1,
                    capacity_ := (v.capacity_ * 2) % sizeModulus } := by
  unfold Insert
  rw [if_neg (by omega)]
  have hE : v.IsEmpty = false := by simp [IsEmpty, hne]
  simp only [hE, GetSize]
  rw [ArrayPtr.create_eq avail _ (Or.inr ha)]
  simp only [Bool.false_eq_true, if_false]
  rw [stdMove_zero _ _ _ (by omega) (by simp; omega)]
  simp only [ArrayPtr.write, List.drop_replicate]
  rw [if_pos (by simp; omega)]
  simp only
  rw [set_append_replicate _ _ _ _ _ (by simp; omega) (by omega)]
  rw [stdMoveBackward_eq _ _ _ _ _ hp hb (by omega) (by simp; omega)]
  have e1 : v.size_ + 1 - (v.size_ - pos) = pos + 1 := by omega
  have e2 : List.take (pos + 1) (List.take pos v.items_
      ++ value :: List.replicate (2 * v.size_ - pos - 1) (default : α))
      = List.take pos v.items_ ++ [value] :=
    take_append_cons _ _ _ _ (by simp; omega)
  have e3 : List.drop (v.size_ + 1) (List.take pos v.items_
      ++ value :: List.replicate (2 * v.size_ - pos - 1) (default : α))
      = List.replicate (v.size_ - 1) default := by
    rw [drop_append_cons_replicate _ _ _ _ _ (by simp; omega)]
    congr 1
    simp only [List.length_take]
    omega
  have e4 : List.take pos (List.take v.size_ v.items_) = List.take pos v.items_ := by
    rw [List.take_take, Nat.min_eq_left hp]
  rw [e1, e2, e3, e4, List.drop_take]
  simp

end SimpleVector

end InsertErase

section PushBackAtClaims

variable {α : Type}

namespace SimpleVector

theorem elems_eq_some {v : SimpleVector α} {xs : List α} (h : v.elems = some xs) :
    v.size_ ≤ v.items_.length ∧ v.items_.take v.size_ = xs ∧ xs.length = v.size_ := by
  unfold elems at h
  by_cases hb : v.size_ ≤ v.items_.length
  · rw [if_pos hb] at h
    have e : v.items_.take v.size_ = xs := Option.some.inj h
    refine ⟨hb, e, ?_⟩
    rw [← e, List.length_take]
    omega
  · rw [if_neg hb] at h
    exact absurd h (by simp)

theorem At_eq_of_elems {v : SimpleVector α} {xs : List α} {i : Nat} {x : α}
    (hx : v.elems = some xs) (hi : xs[i]? = some x) : v.At i = .ret x v := by
  obtain ⟨hb, htk, hl⟩ := elems_eq_some hx
  have hlt : i < xs.length := by
    by_contra hc
    rw [List.getElem?_eq_none (by omega)] at hi
    exact absurd hi (by simp)
  have hi2 : i < v.items_.length := by omega
  rw [← htk, List.getElem?_take, if_pos (by omega), List.getElem?_eq_getElem hi2] at hi
  unfold At
  rw [if_pos (by omega)]
  simp only [ArrayPtr.read, List.getElem?_eq_getElem hi2]
  rw [Option.some.inj hi]

/-- C1: from the default-constructed container, `n >= 1` calls of `PushBack` (with every
allocation served) all return and leave `size = n`, a capacity that is the smallest power of
two that is `>= n`, and the pushed values, in push order, as the live elements. -/
theorem C1_pushback_sequence [Inhabited α] (avail : Nat → Bool)
    (ha : ∀ n, avail n = true) (xs : List α) (hne : xs ≠ []) :
    ∃ v : SimpleVector α, pushAll avail xs {} = .ret () v
      ∧ v.GetSize = xs.length
      ∧ (∃ k, v.GetCapacity = 2 ^ k ∧ xs.length ≤ 2 ^ k ∧ ∀ j, xs.length ≤ 2 ^ j → 2 ^ k ≤ 2 ^ j)
      ∧ v.elems = some xs := by
  obtain ⟨v, hv, hlen, hsz, htk, _, hk⟩ := pushAll_default_inv avail ha xs
  obtain ⟨k, hk1, hk2, hk3⟩ := hk hne
  refine ⟨v, hv, hsz, ⟨k, hk1, hk2, ?_⟩, ?_⟩
  · intro j hj
    rcases hk3 with h | h
    · subst h
      exact Nat.one_le_two_pow
    · have hlt : 2 ^ (k - 1) < 2 ^ j := Nat.lt_of_lt_of_le h hj
      have hkj : k - 1 < j := (Nat.pow_lt_pow_iff_right (by decide)).mp hlt
      exact Nat.pow_le_pow_right (by decide) (by omega)
  · unfold elems
    rw [if_pos (by rw [hlen, hsz, hk1]; exact hk2), htk]

/-- Witness of C1 on the pushes 5, 7, 9. -/
theorem C1_pushback_sequence_witness :
    (∀ n, unlimited n = true) ∧ ([5, 7, 9] : List Nat) ≠ [] ∧
    ∃ v : SimpleVector Nat, pushAll unlimited [5, 7, 9] {} = .ret () v
      ∧ v.GetSize = 3
      ∧ (∃ k, v.GetCapacity = 2 ^ k ∧ 3 ≤ 2 ^ k ∧ ∀ j, 3 ≤ 2 ^ j → 2 ^ k ≤ 2 ^ j)
      ∧ v.elems = some [5, 7, 9] :=
  ⟨fun _ => rfl, by decide,
    C1_pushback_sequence unlimited (fun _ => rfl) [5, 7, 9] (by decide)⟩

/-- C2: `At(index)` throws `out_of_range` whenever `index >= size` (on every state, the empty
ones included) and returns the live element of that index whenever `index < size`; on both
paths the container is left in the state it had. -/
theorem C2_at_checked (v : SimpleVector α) (index : Nat) :
    (v.GetSize ≤ index → v.At index = .thrown .out_of_range v)
    ∧ (∀ xs, v.elems = some xs → index < v.GetSize →
        ∃ x, xs[index]? = some x ∧ v.At index = .ret x v) := by
  constructor
  · intro h
    unfold At
    rw [if_neg (by unfold GetSize at h; omega)]
  · intro xs hx hi
    obtain ⟨hb, htk, hl⟩ := elems_eq_some hx
    unfold GetSize at hi
    have hi2 : index < v.items_.length := by omega
    refine ⟨v.items_[index], ?_, ?_⟩
    · rw [← htk, List.getElem?_take, if_pos hi, List.getElem?_eq_getElem hi2]
    · unfold At
      rw [if_pos hi]
      simp only [ArrayPtr.read, List.getElem?_eq_getElem hi2]

/-- Witness of C2 on the container holding 5, 7 in a block of four cells. -/
theorem C2_at_checked_witness :
    (⟨[5, 7, 0, 0], 2, 4⟩ : SimpleVector Nat).At 2
        = .thrown .out_of_range ⟨[5, 7, 0, 0], 2, 4⟩
    ∧ (({} : SimpleVector Nat).At 0 = .thrown .out_of_range {})
    ∧ ∃ x, ([5, 7] : List Nat)[1]? = some x
        ∧ (⟨[5, 7, 0, 0], 2, 4⟩ : SimpleVector Nat).At 1 = .ret x ⟨[5, 7, 0, 0], 2, 4⟩ :=
  ⟨(C2_at_checked ⟨[5, 7, 0, 0], 2, 4⟩ 2).1 (by decide),
   (C2_at_checked {} 0).1 (by decide),
   (C2_at_checked ⟨[5, 7, 0, 0], 2, 4⟩ 1).2 [5, 7] (by decide) (by decide)⟩

theorem elems_mk (b : List α) (n c : Nat) (h : n ≤ b.length) :
    (SimpleVector.mk b n c).elems = some (b.take n) := by
  unfold elems
  rw [if_pos h]

/-- Insert on a container where an empty state with a recorded capacity also owns a block:
the value lands before offset `pos`, the size grows by one, the offset returned is `pos` and
the element read there is the value. -/
theorem Insert_spec [Inhabited α] (avail : Nat → Bool) (ha : ∀ n, avail n = true)
    (pos : Nat) (value : α) (v : SimpleVector α) (xs : List α) (hx : v.elems = some xs)
    (hp : pos ≤ v.GetSize)
    (hcons : v.size_ = 0 → v.capacity_ ≠ 0 → v.items_ ≠ []) :
    ∃ v1 : SimpleVector α, Insert avail pos value v = .ret pos v1
      ∧ v1.elems = some (xs.take pos ++ value :: xs.drop pos)
      ∧ v1.GetSize = v.GetSize + 1
      ∧ v1.At pos = .ret value v1 := by
  obtain ⟨hb, htk, hl⟩ := elems_eq_some hx
  unfold GetSize at hp
  have hget : (xs.take pos ++ value :: xs.drop pos)[pos]? = some value := by
    rw [List.getElem?_append_right (by simp)]
    simp [List.length_take, Nat.min_eq_left (show pos ≤ xs.length by omega)]
  by_cases hz : v.size_ = 0
  · -- empty container: Insert runs PushBack
    have hp0 : pos = 0 := by omega
    have hxs : xs = [] := List.length_eq_zero.mp (by omega)
    subst hp0
    subst hxs
    have hE : v.IsEmpty = true := by simp [IsEmpty, hz]
    by_cases hc : v.size_ < v.capacity_
    · have hne : v.items_ ≠ [] := hcons hz (by omega)
      have hpos : 0 < v.items_.length := List.length_pos.mpr hne
      have hI : Insert avail 0 value v
          = .ret 0 { v with items_ := v.items_.set v.size_ value, size_ := v.size_ + 1 } := by
        unfold Insert
        rw [if_neg (by omega)]
        simp only [hE, if_true]
        rw [PushBack_spare avail value v hc (by omega)]
      have hel : (SimpleVector.mk (v.items_.set v.size_ value) (v.size_ + 1)
          v.capacity_).elems = some [value] := by
        rw [elems_mk _ _ _ (by simp; omega), take_succ_set _ _ _ (by omega), hz]
        simp
      exact ⟨_, hI, by simpa using hel, rfl, At_eq_of_elems hel (by simp)⟩
    · have hI : Insert avail 0 value v
          = .ret 0 { items_ := v.items_.take v.size_ ++ value ::
                        List.replicate (1 - v.size_ - 1) default,
                      size_ := v.size_ + 1, capacity_ := 1 } := by
        unfold Insert
        rw [if_neg (by omega)]
        simp only [hE, if_true]
        rw [PushBack_grow avail value v 1 (by simp [hz]) hc hb (by omega) (ha 1)]
      have hel : (SimpleVector.mk (v.items_.take v.size_ ++ value ::
          List.replicate (1 - v.size_ - 1) default) (v.size_ + 1) 1).elems = some [value] := by
        rw [elems_mk _ _ _ (by simp; omega), take_append_cons _ _ _ _ (by simp; omega), hz]
        simp
      exact ⟨_, hI, by simpa using hel, rfl, At_eq_of_elems hel (by simp)⟩
  · have hI := Insert_eq avail pos value v hp hz hb (ha _)
    rw [htk] at hI
    have hel : (SimpleVector.mk ((xs.take pos ++ value :: xs.drop pos)
        ++ List.replicate (v.size_ - 1) default) (v.size_ + 1)
        ((v.capacity_ * 2) % sizeModulus)).elems
        = some (xs.take pos ++ value :: xs.drop pos) := by
      have hlen : (xs.take pos ++ value :: xs.drop pos).length = v.size_ + 1 := by
        simp only [List.length_append, List.length_take, List.length_cons, List.length_drop]
        omega
      rw [elems_mk _ _ _ (by rw [List.length_append, hlen]; omega)]
      exact congrArg some (List.take_left' hlen)
    exact ⟨_, hI, hel, rfl, At_eq_of_elems hel hget⟩

end SimpleVector

end PushBackAtClaims

section InsertEraseClaims

variable {α : Type}

namespace SimpleVector

/-- C3: on the container left by `PushBack(5)` then `Erase(begin())` (no live element, no
block, recorded capacity 1), `Insert(begin(), 7)` runs `PushBack`, which finds
`size_ < capacity_` and writes cell 0 of a block that does not exist. -/
theorem C3_insert_after_erase_writes_outside_block :
    pushAll unlimited [5] ({} : SimpleVector Nat) = .ret () ⟨[5], 1, 1⟩
    ∧ Erase unlimited 0 (⟨[5], 1, 1⟩ : SimpleVector Nat) = .ret 0 ⟨[], 0, 1⟩
    ∧ (⟨[], 0, 1⟩ : SimpleVector Nat).elems = some []
    ∧ Insert unlimited 0 7 (⟨[], 0, 1⟩ : SimpleVector Nat) = .undefined := by
  decide

/-- C4: on the container left by three `PushBack` calls (size 3, capacity 4), `Insert`
installs a block of `2 * 3 = 6` cells and records the capacity `2 * 4 = 8`. -/
theorem C4_insert_records_twice_capacity :
    pushAll unlimited [1, 2, 3] ({} : SimpleVector Nat) = .ret () ⟨[1, 2, 3, 0], 3, 4⟩
    ∧ Insert unlimited 0 9 (⟨[1, 2, 3, 0], 3, 4⟩ : SimpleVector Nat)
        = .ret 0 ⟨[9, 1, 2, 3, 0, 0], 4, 8⟩
    ∧ (⟨[9, 1, 2, 3, 0, 0], 4, 8⟩ : SimpleVector Nat).items_.length = 2 * 3
    ∧ (⟨[9, 1, 2, 3, 0, 0], 4, 8⟩ : SimpleVector Nat).GetCapacity ≠ 2 * 3 := by
  decide

/-- C5: `Erase(pos)` with `pos < size` returns, leaves the live elements without the one of
offset `pos` and in their order, makes the size one less, installs a block of exactly
`size - 1` cells, and returns `pos`, where the element that followed the removed one now
is. -/
theorem C5_erase [Inhabited α] (avail : Nat → Bool) (ha : ∀ n, avail n = true) (pos : Nat)
    (v : SimpleVector α) (xs : List α) (hx : v.elems = some xs) (hp : pos < v.GetSize) :
    ∃ v1 : SimpleVector α, Erase avail pos v = .ret pos v1
      ∧ v1.elems = some (xs.take pos ++ xs.drop (pos + 1))
      ∧ v1.GetSize + 1 = v.GetSize
      ∧ v1.items_.length = v.GetSize - 1
      ∧ ∀ x, xs[pos + 1]? = some x → v1.At pos = .ret x v1 := by
  obtain ⟨hb, htk, hl⟩ := elems_eq_some hx
  unfold GetSize at hp
  have hE := Erase_eq avail pos v hp hb (Or.inr (ha _))
  rw [htk] at hE
  have hlen : (xs.take pos ++ xs.drop (pos + 1)).length = v.size_ - 1 := by
    simp only [List.length_append, List.length_take, List.length_drop]
    omega
  have hel : (SimpleVector.mk (xs.take pos ++ xs.drop (pos + 1)) (v.size_ - 1)
      v.capacity_).elems = some (xs.take pos ++ xs.drop (pos + 1)) := by
    rw [elems_mk _ _ _ (by omega)]
    exact congrArg some (List.take_of_length_le (by omega))
  refine ⟨_, hE, hel, ?_, hlen, ?_⟩
  · simp only [GetSize]
    omega
  · intro x hxp
    apply At_eq_of_elems hel
    rw [List.getElem?_append_right (by simp)]
    simp only [List.length_take, Nat.min_eq_left (show pos ≤ xs.length by omega),
      Nat.sub_self, List.getElem?_drop]
    exact hxp

/-- Witness of C5: erasing offset 1 of the container holding 5, 6, 7. -/
theorem C5_erase_witness :
    (∀ n, unlimited n = true)
    ∧ (⟨[5, 6, 7, 0], 3, 4⟩ : SimpleVector Nat).elems = some [5, 6, 7]
    ∧ 1 < (⟨[5, 6, 7, 0], 3, 4⟩ : SimpleVector Nat).GetSize
    ∧ ∃ v1 : SimpleVector Nat, Erase unlimited 1 ⟨[5, 6, 7, 0], 3, 4⟩ = .ret 1 v1
      ∧ v1.elems = some (([5, 6, 7] : List Nat).take 1 ++ ([5, 6, 7] : List Nat).drop (1 + 1))
      ∧ v1.GetSize + 1 = (⟨[5, 6, 7, 0], 3, 4⟩ : SimpleVector Nat).GetSize
      ∧ v1.items_.length = (⟨[5, 6, 7, 0], 3, 4⟩ : SimpleVector Nat).GetSize - 1
      ∧ ∀ x, ([5, 6, 7] : List Nat)[1 + 1]? = some x → v1.At 1 = .ret x v1 :=
  ⟨fun _ => rfl, by decide, by decide,
    C5_erase unlimited (fun _ => rfl) 1 ⟨[5, 6, 7, 0], 3, 4⟩ [5, 6, 7] (by decide) (by decide)⟩

/-- Insert followed by Erase at the returned offset, on a container where an empty state with
a recorded capacity also owns a block: both calls return and the live elements and the size
are the ones before the two calls. -/
theorem Insert_Erase_spec [Inhabited α] (avail : Nat → Bool) (ha : ∀ n, avail n = true)
    (pos : Nat) (value : α) (v : SimpleVector α) (xs : List α) (hx : v.elems = some xs)
    (hp : pos ≤ v.GetSize)
    (hcons : v.size_ = 0 → v.capacity_ ≠ 0 → v.items_ ≠ []) :
    ∃ (r : Nat) (v1 v2 : SimpleVector α), Insert avail pos value v = .ret r v1
      ∧ Erase avail r v1 = .ret r v2
      ∧ v2.elems = some xs ∧ v2.GetSize = v.GetSize := by
  obtain ⟨hb, htk, hl⟩ := elems_eq_some hx
  obtain ⟨v1, h1, he1, hs1, _⟩ := Insert_spec avail ha pos value v xs hx hp hcons
  obtain ⟨hb1, htk1, hl1⟩ := elems_eq_some he1
  unfold GetSize at hp hs1
  have hp1 : pos < v1.size_ := by omega
  have hE := Erase_eq avail pos v1 hp1 hb1 (Or.inr (ha _))
  rw [htk1] at hE
  have hpl : pos ≤ xs.length := by omega
  have hlist : (xs.take pos ++ value :: xs.drop pos).take pos
      ++ (xs.take pos ++ value :: xs.drop pos).drop (pos + 1) = xs := by
    rw [List.take_left' (by simp [List.length_take, Nat.min_eq_left hpl])]
    have e : xs.take pos ++ value :: xs.drop pos = (xs.take pos ++ [value]) ++ xs.drop pos := by
      simp
    rw [e, List.drop_left' (by simp [List.length_take, Nat.min_eq_left hpl])]
    exact List.take_append_drop pos xs
  rw [hlist] at hE
  refine ⟨pos, v1, _, h1, hE, ?_, ?_⟩
  · rw [elems_mk _ _ _ (by omega)]
    exact congrArg some (List.take_of_length_le (by omega))
  · simp only [GetSize]
    omega

/-- C6: on the container left by `PushBack(5)` then `Erase(begin())` (no live element, no
block, recorded capacity 1), the `Insert` of the pair `Insert`, `Erase` already writes outside
the block, so the pair does not give back the former live elements. -/
theorem C6_insert_erase_after_erase_writes_outside_block :
    pushAll unlimited [5] ({} : SimpleVector Nat) = .ret () ⟨[5], 1, 1⟩
    ∧ Erase unlimited 0 (⟨[5], 1, 1⟩ : SimpleVector Nat) = .ret 0 ⟨[], 0, 1⟩
    ∧ (⟨[], 0, 1⟩ : SimpleVector Nat).elems = some []
    ∧ ¬ ∃ (r : Nat) (v1 v2 : SimpleVector Nat),
        Insert unlimited 0 7 ⟨[], 0, 1⟩ = .ret r v1 ∧ Erase unlimited r v1 = .ret r v2
          ∧ v2.elems = some [] := by
  refine ⟨by decide, by decide, by decide, ?_⟩
  rintro ⟨r, v1, v2, h1, _⟩
  have hu : Insert unlimited 0 7 (⟨[], 0, 1⟩ : SimpleVector Nat) = .undefined := by decide
  rw [hu] at h1
  exact Outcome.noConfusion h1

end SimpleVector

end InsertEraseClaims

section Comparison

variable {α : Type}

theorem drop_take_cons (b : List α) (last i : Nat) (h1 : i < last) (h2 : last ≤ b.length) :
    ∃ x, b[i]? = some x ∧ (b.take last).drop i = x :: (b.take last).drop (i + 1) := by
  have hi : i < b.length := by omega
  have hi2 : i < (b.take last).length := by
    rw [List.length_take]
    omega
  refine ⟨b[i], List.getElem?_eq_getElem hi, ?_⟩
  rw [List.drop_eq_getElem_cons hi2, List.getElem_take]

theorem lexLoop_lex [LinearOrder α] (b1 : List α) (last1 : Nat) (b2 : List α) (last2 : Nat)
    (h1 : last1 ≤ b1.length) (h2 : last2 ≤ b2.length) :
    ∀ (n i j : Nat), i ≤ last1 → j ≤ last2 → n = last1 - i →
      ∃ r, lexLoop (fun a b => decide (a < b)) b1 last1 b2 last2 n i j = some r
        ∧ (r = true ↔ List.Lex (· < ·) ((b1.take last1).drop i) ((b2.take last2).drop j)) := by
  intro n
  induction n with
  | zero =>
    intro i j hi hj hn
    have hil : i = last1 := by omega
    have e1 : (b1.take last1).drop i = [] := List.drop_eq_nil_of_le (by simp; omega)
    rw [e1]
    simp only [lexLoop, hil, ne_eq, not_true_eq_false, false_and, if_false, decide_True,
      Bool.true_and]
    refine ⟨_, rfl, ?_⟩
    by_cases hjl : j = last2
    · have e2 : (b2.take last2).drop j = [] := List.drop_eq_nil_of_le (by simp; omega)
      rw [e2]
      simp [hjl, List.Lex.not_nil_right]
    · obtain ⟨y, _, hy⟩ := drop_take_cons b2 last2 j (by omega) h2
      rw [hy]
      simp [hjl, List.Lex.nil]
  | succ n ih =>
    intro i j hi hj hn
    have hil : i < last1 := by omega
    obtain ⟨x, hx1, hx2⟩ := drop_take_cons b1 last1 i hil h1
    by_cases hjl : j = last2
    · have e2 : (b2.take last2).drop j = [] := List.drop_eq_nil_of_le (by simp; omega)
      rw [e2]
      simp only [lexLoop, hjl, ne_eq, not_true_eq_false, and_false, if_false]
      refine ⟨_, rfl, ?_⟩
      simp [List.Lex.not_nil_right, Nat.ne_of_lt hil]
    · obtain ⟨y, hy1, hy2⟩ := drop_take_cons b2 last2 j (by omega) h2
      have hcond : i ≠ last1 ∧ j ≠ last2 := ⟨by omega, hjl⟩
      simp only [lexLoop, hcond, ne_eq, not_false_eq_true, and_self, if_true, ArrayPtr.read,
        hx1, hy1]
      rw [hx2, hy2]
      by_cases hxy : x < y
      · exact ⟨true, by simp [hxy], by simp [List.Lex.rel hxy]⟩
      · by_cases hyx : y < x
        · refine ⟨false, by simp [hxy, hyx], ?_⟩
          constructor
          · intro h
            exact absurd h (by simp)
          · intro h
            cases h with
            | cons h => exact absurd hyx (lt_irrefl _)
            | rel h => exact absurd h hxy
        · have hEq : x = y := le_antisymm (not_lt.mp hyx) (not_lt.mp hxy)
          obtain ⟨r, hr1, hr2⟩ := ih (i + 1) (j + 1) (by omega) (by omega) (by omega)
          refine ⟨r, by simp [hxy, hyx, hr1], ?_⟩
          rw [hr2, hEq]
          exact List.Lex.cons_iff.symm

theorem lex_iff_first_difference [LinearOrder α] : ∀ (xs ys : List α),
    List.Lex (· < ·) xs ys ↔
      ((xs.length < ys.length ∧ ys.take xs.length = xs)
        ∨ ∃ k x y, xs[k]? = some x ∧ ys[k]? = some y ∧ xs.take k = ys.take k ∧ x < y) := by
  intro xs
  induction xs with
  | nil =>
    intro ys
    cases ys with
    | nil => simp [List.Lex.not_nil_right]
    | cons b m => simp [List.Lex.nil]
  | cons a l ih =>
    intro ys
    cases ys with
    | nil => simp [List.Lex.not_nil_right]
    | cons b m =>
      constructor
      · intro h
        cases h with
        | cons h =>
          rcases (ih m).mp h with ⟨h1, h2⟩ | ⟨k, x, y, hx, hy, ht, hlt⟩
          · left
            exact ⟨by simpa using h1, by simp [h2]⟩
          · right
            exact ⟨k + 1, x, y, by simpa using hx, by simpa using hy, by simp [ht], hlt⟩
        | rel h =>
          right
          exact ⟨0, a, b, by simp, by simp, by simp, h⟩
      · rintro (⟨h1, h2⟩ | ⟨k, x, y, hx, hy, ht, hlt⟩)
        · simp only [List.length_cons, List.take_succ_cons, List.cons.injEq] at h1 h2
          obtain ⟨rfl, h3⟩ := h2
          exact List.Lex.cons ((ih m).mpr (Or.inl ⟨by omega, h3⟩))
        · cases k with
          | zero =>
            simp only [List.getElem?_cons_zero, Option.some.injEq] at hx hy
            subst hx
            subst hy
            exact List.Lex.rel hlt
          | succ k =>
            simp only [List.getElem?_cons_succ, List.take_succ_cons, List.cons.injEq] at hx hy ht
            obtain ⟨rfl, ht2⟩ := ht
            exact List.Lex.cons ((ih m).mpr (Or.inr ⟨k, x, y, hx, hy, ht2, hlt⟩))

end Comparison

section Equality

variable {α : Type}

theorem equalLoop_spec [BEq α] (b1 b2 : List α) :
    ∀ (n i j : Nat), i + n ≤ b1.length → j + n ≤ b2.length →
      ∃ r, equalLoop b1 b2 n i j = some r
        ∧ (r = true ↔ ∀ (k : Nat) (x y : α), k < n → b1[i + k]? = some x → b2[j + k]? = some y
              → (x == y) = true) := by
  intro n
  induction n with
  | zero =>
    intro i j _ _
    exact ⟨true, rfl, by simp⟩
  | succ n ih =>
    intro i j h1 h2
    have hi : i < b1.length := by omega
    have hj : j < b2.length := by omega
    simp only [equalLoop, ArrayPtr.read, List.getElem?_eq_getElem hi,
      List.getElem?_eq_getElem hj]
    by_cases hxy : (b1[i] == b2[j]) = true
    · obtain ⟨r, hr1, hr2⟩ := ih (i + 1) (j + 1) (by omega) (by omega)
      refine ⟨r, by simp [hxy, hr1], ?_⟩
      rw [hr2]
      constructor
      · intro h k x y hk hx hy
        cases k with
        | zero =>
          simp only [Nat.add_zero, List.getElem?_eq_getElem hi, List.getElem?_eq_getElem hj,
            Option.some.injEq] at hx hy
          rw [← hx, ← hy]
          exact hxy
        | succ k =>
          exact h k x y (by omega) (by rw [← hx]; congr 1; omega) (by rw [← hy]; congr 1; omega)
      · intro h k x y hk hx hy
        exact h (k + 1) x y (by omega) (by rw [← hx]; congr 1; omega)
          (by rw [← hy]; congr 1; omega)
    · refine ⟨false, by simp [hxy], ?_⟩
      constructor
      · intro h
        exact absurd h (by simp)
      · intro h
        exact absurd (h 0 b1[i] b2[j] (by omega) (by simp [List.getElem?_eq_getElem hi])
          (by simp [List.getElem?_eq_getElem hj])) hxy

namespace SimpleVector

theorem opEq_spec [BEq α] (a b : SimpleVector α) (xs ys : List α)
    (ha : a.elems = some xs) (hb : b.elems = some ys) :
    ∃ r, opEq a b = some r
      ∧ (r = true ↔ (xs.length = ys.length
            ∧ ∀ (k : Nat) (x y : α), xs[k]? = some x → ys[k]? = some y → (x == y) = true)) := by
  obtain ⟨ha1, ha2, ha3⟩ := elems_eq_some ha
  obtain ⟨hb1, hb2, hb3⟩ := elems_eq_some hb
  unfold opEq
  simp only [GetSize]
  by_cases hs : a.size_ = b.size_
  · rw [if_neg (by simpa using hs), if_pos hs]
    unfold stdEqual
    rw [if_neg (by omega)]
    obtain ⟨r, hr1, hr2⟩ := equalLoop_spec a.items_ b.items_ (a.size_ - 0) 0 0 (by omega)
      (by omega)
    refine ⟨r, hr1, ?_⟩
    rw [hr2]
    constructor
    · intro h
      refine ⟨by omega, ?_⟩
      intro k x y hx hy
      have hk : k < xs.length := by
        by_contra hc
        rw [List.getElem?_eq_none (by omega)] at hx
        exact absurd hx (by simp)
      rw [← ha2, List.getElem?_take, if_pos (by omega)] at hx
      rw [← hb2, List.getElem?_take, if_pos (by omega)] at hy
      exact h k x y (by omega) (by simpa using hx) (by simpa using hy)
    · rintro ⟨_, h⟩ k x y hk hx hy
      simp only [Nat.zero_add] at hx hy
      apply h k x y
      · rw [← ha2, List.getElem?_take, if_pos (by omega)]
        exact hx
      · rw [← hb2, List.getElem?_take, if_pos (by omega)]
        exact hy
  · rw [if_pos (by simpa using hs)]
    refine ⟨false, rfl, ?_⟩
    constructor
    · intro h
      exact absurd h (by simp)
    · rintro ⟨h, _⟩
      exact absurd (by omega) hs

end SimpleVector

end Equality

section ComparisonCopyClaims

variable {α : Type}

namespace SimpleVector

theorem opLt_spec [LinearOrder α] (a b : SimpleVector α) (xs ys : List α)
    (ha : a.elems = some xs) (hb : b.elems = some ys) :
    ∃ r, opLt (fun x y => decide (x < y)) a b = some r
      ∧ (r = true ↔ List.Lex (· < ·) xs ys) := by
  obtain ⟨ha1, ha2, _⟩ := elems_eq_some ha
  obtain ⟨hb1, hb2, _⟩ := elems_eq_some hb
  unfold opLt stdLexicographicalCompare
  rw [if_neg (by omega)]
  obtain ⟨r, hr1, hr2⟩ := lexLoop_lex a.items_ a.size_ b.items_ b.size_ ha1 hb1
    (a.size_ - 0) 0 0 (Nat.zero_le _) (Nat.zero_le _) rfl
  rw [List.drop_zero, List.drop_zero, ha2, hb2] at hr2
  exact ⟨r, hr1, hr2⟩

/-- C7: for the containers holding 1, 2 and 1, 2, 3 (both left by `PushBack` calls), `a < b`
and `a > b` both hold, while `b < a`, `b == a` and `b > a` all fail: `operator>` answers
true when its left operand is a proper initial segment of the right one. -/
theorem C7_greater_not_mirror_of_less :
    pushAll unlimited [1, 2] ({} : SimpleVector Nat) = .ret () ⟨[1, 2], 2, 2⟩
    ∧ pushAll unlimited [1, 2, 3] ({} : SimpleVector Nat) = .ret () ⟨[1, 2, 3, 0], 3, 4⟩
    ∧ opLt (fun x y : Nat => decide (x < y)) ⟨[1, 2], 2, 2⟩ ⟨[1, 2, 3, 0], 3, 4⟩ = some true
    ∧ opGt (fun x y : Nat => decide (x > y)) ⟨[1, 2], 2, 2⟩ ⟨[1, 2, 3, 0], 3, 4⟩ = some true
    ∧ opLt (fun x y : Nat => decide (x < y)) ⟨[1, 2, 3, 0], 3, 4⟩ ⟨[1, 2], 2, 2⟩ = some false
    ∧ opEq (⟨[1, 2, 3, 0], 3, 4⟩ : SimpleVector Nat) ⟨[1, 2], 2, 2⟩ = some false
    ∧ opGt (fun x y : Nat => decide (x > y)) ⟨[1, 2, 3, 0], 3, 4⟩ ⟨[1, 2], 2, 2⟩
        = some false := by
  decide

/-- C8: `a < b` returns, and it returns true exactly when the live elements of `a` are a
proper initial segment of those of `b` or, at the first offset where the two differ, the
element of `a` is less than the element of `b`; so `[1,2,3] < [1,2,4]` and `[1,2] < [1,2,3]`
hold and `[1,2,3] < [1,2,3]` does not. -/
theorem C8_less_is_lexicographic [LinearOrder α] (a b : SimpleVector α) (xs ys : List α)
    (ha : a.elems = some xs) (hb : b.elems = some ys) :
    (∃ r, opLt (fun x y => decide (x < y)) a b = some r
      ∧ (r = true ↔
          ((xs.length < ys.length ∧ ys.take xs.length = xs)
            ∨ ∃ (k : Nat) (x y : α), xs[k]? = some x ∧ ys[k]? = some y
                ∧ xs.take k = ys.take k ∧ x < y)))
    ∧ opLt (fun x y : Nat => decide (x < y)) ⟨[1, 2, 3], 3, 3⟩ ⟨[1, 2, 4], 3, 3⟩ = some true
    ∧ opLt (fun x y : Nat => decide (x < y)) ⟨[1, 2], 2, 2⟩ ⟨[1, 2, 3], 3, 3⟩ = some true
    ∧ opLt (fun x y : Nat => decide (x < y)) ⟨[1, 2, 3], 3, 3⟩ ⟨[1, 2, 3], 3, 3⟩
        = some false := by
  refine ⟨?_, by decide, by decide, by decide⟩
  obtain ⟨r, hr1, hr2⟩ := opLt_spec a b xs ys ha hb
  exact ⟨r, hr1, hr2.trans (lex_iff_first_difference xs ys)⟩

/-- Witness of C8 on the containers holding 1, 2 and 1, 2, 3 with spare cells. -/
theorem C8_less_is_lexicographic_witness :
    (⟨[1, 2, 0, 0], 2, 4⟩ : SimpleVector Nat).elems = some [1, 2]
    ∧ (⟨[1, 2, 3, 9], 3, 4⟩ : SimpleVector Nat).elems = some [1, 2, 3]
    ∧ ∃ r, opLt (fun x y : Nat => decide (x < y)) ⟨[1, 2, 0, 0], 2, 4⟩ ⟨[1, 2, 3, 9], 3, 4⟩
          = some r
      ∧ (r = true ↔
          ((([1, 2] : List Nat).length < ([1, 2, 3] : List Nat).length
              ∧ ([1, 2, 3] : List Nat).take ([1, 2] : List Nat).length = [1, 2])
            ∨ ∃ (k : Nat) (x y : Nat), ([1, 2] : List Nat)[k]? = some x
                ∧ ([1, 2, 3] : List Nat)[k]? = some y
                ∧ ([1, 2] : List Nat).take k = ([1, 2, 3] : List Nat).take k ∧ x < y)) :=
  ⟨by decide, by decide,
    (C8_less_is_lexicographic ⟨[1, 2, 0, 0], 2, 4⟩ ⟨[1, 2, 3, 9], 3, 4⟩ [1, 2] [1, 2, 3]
      (by decide) (by decide)).1⟩

/-- C9: `a == b` returns, and it returns true exactly when the two sizes are equal and the
live elements of equal offset compare `==`; the answer is the same for any two containers
with the same live elements, whatever their capacities and spare cells; `a != b` returns the
negation. -/
theorem C9_equality [BEq α] (a b : SimpleVector α) (xs ys : List α)
    (ha : a.elems = some xs) (hb : b.elems = some ys) :
    ∃ r, opEq a b = some r
      ∧ (r = true ↔ (a.GetSize = b.GetSize
            ∧ ∀ (k : Nat) (x y : α), xs[k]? = some x → ys[k]? = some y → (x == y) = true))
      ∧ opNe a b = some (!r)
      ∧ ∀ a1 b1 : SimpleVector α, a1.elems = some xs → b1.elems = some ys →
          opEq a1 b1 = some r := by
  obtain ⟨r, hr1, hr2⟩ := opEq_spec a b xs ys ha hb
  obtain ⟨_, _, hla⟩ := elems_eq_some ha
  obtain ⟨_, _, hlb⟩ := elems_eq_some hb
  refine ⟨r, hr1, ?_, ?_, ?_⟩
  · rw [hr2]
    simp only [GetSize, hla, hlb]
  · unfold opNe
    rw [hr1]
    rfl
  · intro a1 b1 h1 h2
    obtain ⟨r1, hs1, hs2⟩ := opEq_spec a1 b1 xs ys h1 h2
    rw [hs1]
    congr 1
    have hiff : r1 = true ↔ r = true := hs2.trans hr2.symm
    cases r1 <;> cases r <;> simp_all

/-- Witness of C9: the same live elements 1, 2 in blocks of different lengths and different
spare cells compare equal. -/
theorem C9_equality_witness :
    (⟨[1, 2, 0, 0], 2, 4⟩ : SimpleVector Nat).elems = some [1, 2]
    ∧ (⟨[1, 2, 7], 2, 3⟩ : SimpleVector Nat).elems = some [1, 2]
    ∧ ∃ r, opEq (⟨[1, 2, 0, 0], 2, 4⟩ : SimpleVector Nat) ⟨[1, 2, 7], 2, 3⟩ = some r
      ∧ (r = true ↔ ((⟨[1, 2, 0, 0], 2, 4⟩ : SimpleVector Nat).GetSize
              = (⟨[1, 2, 7], 2, 3⟩ : SimpleVector Nat).GetSize
            ∧ ∀ (k : Nat) (x y : Nat), ([1, 2] : List Nat)[k]? = some x
                → ([1, 2] : List Nat)[k]? = some y → (x == y) = true))
      ∧ opNe (⟨[1, 2, 0, 0], 2, 4⟩ : SimpleVector Nat) ⟨[1, 2, 7], 2, 3⟩ = some (!r)
      ∧ ∀ a1 b1 : SimpleVector Nat, a1.elems = some [1, 2] → b1.elems = some [1, 2] →
          opEq a1 b1 = some r :=
  ⟨by decide, by decide,
    C9_equality ⟨[1, 2, 0, 0], 2, 4⟩ ⟨[1, 2, 7], 2, 3⟩ [1, 2] [1, 2] (by decide) (by decide)⟩

theorem RethrowItemsFromIterable_eq [Inhabited α] (avail : Nat → Bool) (blk : List α)
    (n : Nat) (v : SimpleVector α) (ha : n = 0 ∨ avail n = true) (hn : n ≤ blk.length) :
    RethrowItemsFromIterable avail blk n n v
      = .ret () { items_ := blk.take n, size_ := n, capacity_ := n } := by
  unfold RethrowItemsFromIterable
  rw [ArrayPtr.create_eq avail n ha]
  simp only
  rw [stdMove_zero _ _ _ hn (by simp)]
  simp

/-- C10: the copy constructor and the copy assignment (whatever the state of the target) both
return, give a container that compares `==` to the source `s` (for an element `==` that is
reflexive), with size and capacity both equal to the size of `s` and the live elements of `s`,
and leave `s` as it was. -/
theorem C10_copy [Inhabited α] [BEq α] (hrefl : ∀ x : α, (x == x) = true)
    (avail : Nat → Bool) (ha : ∀ n, avail n = true) (s target : SimpleVector α)
    (xs : List α) (hs : s.elems = some xs) :
    ∃ c1 c2 : SimpleVector α,
      copyConstruct avail s = .ret () (c1, s) ∧ copyAssign avail target s = .ret () (c2, s)
      ∧ opEq c1 s = some true ∧ opEq c2 s = some true
      ∧ c1.GetSize = s.GetSize ∧ c1.GetCapacity = s.GetSize
      ∧ c2.GetSize = s.GetSize ∧ c2.GetCapacity = s.GetSize
      ∧ c1.elems = some xs ∧ c2.elems = some xs := by
  obtain ⟨hb, htk, hl⟩ := elems_eq_some hs
  have hcopy : ∀ v : SimpleVector α,
      RethrowItemsFromIterable avail s.items_ s.size_ s.GetSize v
        = .ret () { items_ := xs, size_ := s.size_, capacity_ := s.size_ } := by
    intro v
    rw [GetSize, RethrowItemsFromIterable_eq avail _ _ v (Or.inr (ha _)) hb, htk]
  have hel : (SimpleVector.mk xs s.size_ s.size_).elems = some xs := by
    rw [elems_mk _ _ _ (by omega)]
    exact congrArg some (List.take_of_length_le (by omega))
  have heq : opEq (SimpleVector.mk xs s.size_ s.size_) s = some true := by
    obtain ⟨r, hr1, hr2⟩ := opEq_spec _ s xs xs hel hs
    have hr : r = true := by
      rw [hr2]
      refine ⟨rfl, ?_⟩
      intro k x y hx hy
      rw [hx] at hy
      rw [← Option.some.inj hy]
      exact hrefl x
    rw [hr1, hr]
  refine ⟨_, _, ?_, ?_, heq, heq, rfl, rfl, rfl, rfl, hel, hel⟩
  · unfold copyConstruct
    rw [hcopy]
  · unfold copyAssign
    rw [hcopy]

/-- Witness of C10: a source of size 2 and capacity 4 copied into a target of capacity 8. -/
theorem C10_copy_witness :
    (∀ x : Nat, (x == x) = true) ∧ (∀ n, unlimited n = true)
    ∧ (⟨[5, 7, 0, 0], 2, 4⟩ : SimpleVector Nat).elems = some [5, 7]
    ∧ ∃ c1 c2 : SimpleVector Nat,
      copyConstruct unlimited ⟨[5, 7, 0, 0], 2, 4⟩ = .ret () (c1, ⟨[5, 7, 0, 0], 2, 4⟩)
      ∧ copyAssign unlimited ⟨[1, 2, 3, 0, 0, 0, 0, 0], 3, 8⟩ ⟨[5, 7, 0, 0], 2, 4⟩
          = .ret () (c2, ⟨[5, 7, 0, 0], 2, 4⟩)
      ∧ opEq c1 ⟨[5, 7, 0, 0], 2, 4⟩ = some true ∧ opEq c2 ⟨[5, 7, 0, 0], 2, 4⟩ = some true
      ∧ c1.GetSize = (⟨[5, 7, 0, 0], 2, 4⟩ : SimpleVector Nat).GetSize
      ∧ c1.GetCapacity = (⟨[5, 7, 0, 0], 2, 4⟩ : SimpleVector Nat).GetSize
      ∧ c2.GetSize = (⟨[5, 7, 0, 0], 2, 4⟩ : SimpleVector Nat).GetSize
      ∧ c2.GetCapacity = (⟨[5, 7, 0, 0], 2, 4⟩ : SimpleVector Nat).GetSize
      ∧ c1.elems = some [5, 7] ∧ c2.elems = some [5, 7] :=
  ⟨fun _ => by simp, fun _ => rfl, by decide,
    C10_copy (fun _ => by simp) unlimited (fun _ => rfl) ⟨[5, 7, 0, 0], 2, 4⟩
      ⟨[1, 2, 3, 0, 0, 0, 0, 0], 3, 8⟩ [5, 7] (by decide)⟩

end SimpleVector

end ComparisonCopyClaims

section ResizeReserveMove

variable {α : Type}

theorem fillLoop_eq (value : α) : ∀ (n first : Nat) (dst : List α),
    first + n ≤ dst.length →
    fillLoop value n first dst
      = some (dst.take first ++ List.replicate n value ++ dst.drop (first + n)) := by
  intro n
  induction n with
  | zero =>
    intro first dst _
    simp [fillLoop]
  | succ n ih =>
    intro first dst h
    have hf : first < dst.length := by omega
    simp only [fillLoop, ArrayPtr.write, hf, if_true]
    rw [ih (first + 1) (dst.set first value) (by simp; omega)]
    congr 1
    rw [take_succ_set _ _ _ hf, List.drop_set_of_lt _ _ (by omega)]
    have e : first + 1 + n = first + (n + 1) := by omega
    rw [e, List.replicate_succ]
    simp

namespace SimpleVector

theorem sizeConstruct_eq [Inhabited α] (ne : α → α → Bool)
    (hne : ∀ a b : α, ne a b = true ↔ a ≠ b) (avail : Nat → Bool) (n : Nat) (value : α)
    (ha : n = 0 ∨ avail n = true) :
    sizeConstruct ne avail n value
      = .ret () { items_ := List.replicate n value, size_ := n, capacity_ := n } := by
  unfold sizeConstruct
  rw [ArrayPtr.create_eq avail n ha]
  simp only
  by_cases hv : ne value default = true
  · rw [if_pos hv]
    unfold stdFill
    rw [if_neg (by omega), fillLoop_eq value (n - 0) 0 _ (by simp)]
    simp
  · rw [if_neg hv]
    have hd : value = default := by
      by_contra hc
      exact hv ((hne value default).mpr hc)
    rw [hd]

theorem moveConstruct_eq [Inhabited α] (avail : Nat → Bool) (o : SimpleVector α)
    (ha : o.size_ = 0 ∨ avail o.size_ = true) (hb : o.size_ ≤ o.items_.length) :
    moveConstruct avail o
      = .ret () ({ items_ := o.items_.take o.size_, size_ := o.size_,
                   capacity_ := o.capacity_ },
                 { items_ := o.items_, size_ := 0, capacity_ := o.capacity_ }) := by
  unfold moveConstruct
  simp only [GetSize, GetCapacity, Clear]
  rw [ArrayPtr.create_eq avail _ ha]
  simp only
  rw [stdMove_zero _ _ _ hb (by simp)]
  simp

theorem Resize_grow_eq [Inhabited α] (avail : Nat → Bool) (n : Nat) (v : SimpleVector α)
    (hn : v.size_ < n) (ha : avail n = true) (hb : v.size_ ≤ v.items_.length) :
    Resize avail n v
      = .ret () { items_ := v.items_.take v.size_ ++ List.replicate (n - v.size_) default,
                  size_ := n, capacity_ := n } := by
  unfold Resize
  rw [if_neg (by omega), RethrowItems_eq avail n v (Or.inr ha) hb (by omega)]

theorem Reserve_grow_eq [Inhabited α] (avail : Nat → Bool) (n : Nat) (v : SimpleVector α)
    (hn : v.capacity_ < n) (ha : avail n = true) (hb : v.size_ ≤ v.items_.length)
    (hs : v.size_ ≤ n) :
    Reserve avail n v
      = .ret () { items_ := v.items_.take v.size_ ++ List.replicate (n - v.size_) default,
                  size_ := v.size_, capacity_ := n } := by
  unfold Reserve
  rw [if_pos (by omega), RethrowItems_eq avail n v (Or.inr ha) hb hs]

theorem elems_append (xs t : List α) (n c : Nat) (h : n = xs.length) :
    (SimpleVector.mk (xs ++ t) n c).elems = some xs := by
  rw [elems_mk _ _ _ (by simp; omega)]
  exact congrArg some (List.take_left' h.symm)

end SimpleVector

end ResizeReserveMove

section MoveResizeReserveClaims

variable {α : Type}

namespace SimpleVector

/-- C11: move construction from `s` returns, gives a destination with the live elements and
the size that `s` had and with the recorded capacity that `s` had, and leaves `s` with
size 0. -/
theorem C11_move_construct [Inhabited α] (avail : Nat → Bool) (ha : ∀ n, avail n = true)
    (s : SimpleVector α) (xs : List α) (hs : s.elems = some xs) :
    ∃ d s1 : SimpleVector α, moveConstruct avail s = .ret () (d, s1)
      ∧ d.elems = some xs ∧ d.GetSize = s.GetSize ∧ d.GetCapacity = s.GetCapacity
      ∧ s1.GetSize = 0 := by
  obtain ⟨hb, htk, hl⟩ := elems_eq_some hs
  refine ⟨_, _, moveConstruct_eq avail s (Or.inr (ha _)) hb, ?_, rfl, rfl, rfl⟩
  rw [htk, elems_mk _ _ _ (by omega)]
  exact congrArg some (List.take_of_length_le (by omega))

/-- Witness of C11: a source of size 2 and capacity 4. -/
theorem C11_move_construct_witness :
    (∀ n, unlimited n = true)
    ∧ (⟨[5, 7, 0, 0], 2, 4⟩ : SimpleVector Nat).elems = some [5, 7]
    ∧ ∃ d s1 : SimpleVector Nat, moveConstruct unlimited ⟨[5, 7, 0, 0], 2, 4⟩ = .ret () (d, s1)
      ∧ d.elems = some [5, 7]
      ∧ d.GetSize = (⟨[5, 7, 0, 0], 2, 4⟩ : SimpleVector Nat).GetSize
      ∧ d.GetCapacity = (⟨[5, 7, 0, 0], 2, 4⟩ : SimpleVector Nat).GetCapacity
      ∧ s1.GetSize = 0 :=
  ⟨fun _ => rfl, by decide,
    C11_move_construct unlimited (fun _ => rfl) ⟨[5, 7, 0, 0], 2, 4⟩ [5, 7] (by decide)⟩

/-- C12: `Resize(newSize)` with `newSize > size` returns with size = capacity = `newSize`
(whatever the capacity was), the former live elements in place and default values in the cells
from the old size on; with `newSize <= size` it returns having only set the size: capacity and
block are the same and the live elements are the first `newSize` former ones. -/
theorem C12_resize [Inhabited α] (avail : Nat → Bool) (ha : ∀ n, avail n = true)
    (newSize : Nat) (v : SimpleVector α) (xs : List α) (hx : v.elems = some xs) :
    (v.GetSize < newSize →
      ∃ v1 : SimpleVector α, Resize avail newSize v = .ret () v1
        ∧ v1.GetSize = newSize ∧ v1.GetCapacity = newSize
        ∧ v1.elems = some (xs ++ List.replicate (newSize - v.GetSize) default))
    ∧ (newSize ≤ v.GetSize →
      ∃ v1 : SimpleVector α, Resize avail newSize v = .ret () v1
        ∧ v1.GetSize = newSize ∧ v1.GetCapacity = v.GetCapacity ∧ v1.items_ = v.items_
        ∧ v1.elems = some (xs.take newSize)) := by
  obtain ⟨hb, htk, hl⟩ := elems_eq_some hx
  simp only [GetSize, GetCapacity]
  constructor
  · intro hn
    refine ⟨_, Resize_grow_eq avail newSize v hn (ha _) hb, rfl, rfl, ?_⟩
    rw [htk]
    rw [elems_mk _ _ _ (by simp; omega)]
    exact congrArg some (List.take_of_length_le (by simp; omega))
  · intro hn
    refine ⟨{ v with size_ := newSize }, ?_, rfl, rfl, rfl, ?_⟩
    · unfold Resize
      rw [if_pos hn]
    · rw [elems_mk _ _ _ (by omega), ← htk, List.take_take, Nat.min_eq_left hn]

/-- Witness of C12: growing a container of size 2 and capacity 8 to size 4, and shrinking it
to size 1. -/
theorem C12_resize_witness :
    (∀ n, unlimited n = true)
    ∧ (⟨[5, 7, 9, 0, 0, 0, 0, 0], 2, 8⟩ : SimpleVector Nat).elems = some [5, 7]
    ∧ (∃ v1 : SimpleVector Nat,
        Resize unlimited 4 ⟨[5, 7, 9, 0, 0, 0, 0, 0], 2, 8⟩ = .ret () v1
        ∧ v1.GetSize = 4 ∧ v1.GetCapacity = 4
        ∧ v1.elems = some ([5, 7] ++ List.replicate
            (4 - (⟨[5, 7, 9, 0, 0, 0, 0, 0], 2, 8⟩ : SimpleVector Nat).GetSize) default))
    ∧ (∃ v1 : SimpleVector Nat,
        Resize unlimited 1 ⟨[5, 7, 9, 0, 0, 0, 0, 0], 2, 8⟩ = .ret () v1
        ∧ v1.GetSize = 1
        ∧ v1.GetCapacity = (⟨[5, 7, 9, 0, 0, 0, 0, 0], 2, 8⟩ : SimpleVector Nat).GetCapacity
        ∧ v1.items_ = (⟨[5, 7, 9, 0, 0, 0, 0, 0], 2, 8⟩ : SimpleVector Nat).items_
        ∧ v1.elems = some (([5, 7] : List Nat).take 1)) :=
  ⟨fun _ => rfl, by decide,
    (C12_resize unlimited (fun _ => rfl) 4 ⟨[5, 7, 9, 0, 0, 0, 0, 0], 2, 8⟩ [5, 7]
      (by decide)).1 (by decide),
    (C12_resize unlimited (fun _ => rfl) 1 ⟨[5, 7, 9, 0, 0, 0, 0, 0], 2, 8⟩ [5, 7]
      (by decide)).2 (by decide)⟩

/-- C14: for an element type whose `!=` is the negation of equality, the constructor from a
size `n` and a fill value returns a container with size = capacity = `n` whose `n` elements
all are the fill value, whether that value is the default one or not. -/
theorem C14_size_construct [Inhabited α] (ne : α → α → Bool)
    (hne : ∀ a b : α, ne a b = true ↔ a ≠ b) (avail : Nat → Bool)
    (ha : ∀ n, avail n = true) (n : Nat) (value : α) :
    ∃ v : SimpleVector α, sizeConstruct ne avail n value = .ret () v
      ∧ v.GetSize = n ∧ v.GetCapacity = n ∧ v.elems = some (List.replicate n value) := by
  refine ⟨_, sizeConstruct_eq ne hne avail n value (Or.inr (ha _)), rfl, rfl, ?_⟩
  rw [elems_mk _ _ _ (by simp)]
  exact congrArg some (List.take_of_length_le (by simp))

/-- Witness of C14: three elements filled with 7, which is not the default value of `Nat`, and
three elements filled with 0, which is. -/
theorem C14_size_construct_witness :
    (∀ a b : Nat, (fun x y : Nat => decide (x ≠ y)) a b = true ↔ a ≠ b)
    ∧ (∀ n, unlimited n = true)
    ∧ (∃ v : SimpleVector Nat,
        sizeConstruct (fun x y : Nat => decide (x ≠ y)) unlimited 3 7 = .ret () v
        ∧ v.GetSize = 3 ∧ v.GetCapacity = 3 ∧ v.elems = some (List.replicate 3 7))
    ∧ (∃ v : SimpleVector Nat,
        sizeConstruct (fun x y : Nat => decide (x ≠ y)) unlimited 3 0 = .ret () v
        ∧ v.GetSize = 3 ∧ v.GetCapacity = 3 ∧ v.elems = some (List.replicate 3 0)) :=
  ⟨fun _ _ => by simp, fun _ => rfl,
    C14_size_construct (fun x y : Nat => decide (x ≠ y)) (fun _ _ => by simp) unlimited
      (fun _ => rfl) 3 7,
    C14_size_construct (fun x y : Nat => decide (x ≠ y)) (fun _ _ => by simp) unlimited
      (fun _ => rfl) 3 0⟩

end SimpleVector

end MoveResizeReserveClaims

section ShapeLemmas

variable {α : Type}

theorem ArrayPtr.write_length {p q : ArrayPtr α} {i : Nat} {x : α}
    (h : ArrayPtr.write p i x = some q) : q.length = p.length ∧ i < p.length := by
  unfold ArrayPtr.write at h
  by_cases hi : i < p.length
  · rw [if_pos hi] at h
    rw [← Option.some.inj h]
    exact ⟨by simp, hi⟩
  · rw [if_neg hi] at h
    exact absurd h (by simp)

theorem ArrayPtr.create_length [Inhabited α] {avail : Nat → Bool} {n : Nat} {t : ArrayPtr α}
    (h : ArrayPtr.create avail n = some t) : t.length = n := by
  unfold ArrayPtr.create at h
  by_cases hn : n = 0
  · simp [hn] at h
    simp [← h, hn]
  · by_cases ha : avail n = true
    · simp [hn, ha] at h
      simp [← h]
    · simp [hn, ha] at h

theorem moveLoop_length (src : List α) : ∀ (n first : Nat) (dst : List α) (d : Nat)
    (r : List α), moveLoop src n first dst d = some r → r.length = dst.length := by
  intro n
  induction n with
  | zero =>
    intro first dst d r h
    simp only [moveLoop, Option.some.injEq] at h
    rw [← h]
  | succ n ih =>
    intro first dst d r h
    simp only [moveLoop] at h
    cases hr : ArrayPtr.read src first with
    | none => rw [hr] at h; exact absurd h (by simp)
    | some x =>
      rw [hr] at h
      simp only at h
      cases hw : ArrayPtr.write dst d x with
      | none => rw [hw] at h; exact absurd h (by simp)
      | some dst1 =>
        rw [hw] at h
        simp only at h
        rw [ih _ _ _ _ h, (ArrayPtr.write_length hw).1]

theorem stdMove_length {src dst r : List α} {first last d : Nat}
    (h : stdMove src first last dst d = some r) : r.length = dst.length := by
  unfold stdMove at h
  by_cases hl : last < first
  · rw [if_pos hl] at h
    exact absurd h (by simp)
  · rw [if_neg hl] at h
    exact moveLoop_length src _ _ _ _ _ h

theorem moveLoop_bound (src : List α) : ∀ (n first : Nat) (dst : List α) (d : Nat)
    (r : List α), moveLoop src n first dst d = some r → n = 0 ∨ d + n ≤ dst.length := by
  intro n
  induction n with
  | zero =>
    intro first dst d r _
    exact Or.inl rfl
  | succ n ih =>
    intro first dst d r h
    simp only [moveLoop] at h
    cases hr : ArrayPtr.read src first with
    | none => rw [hr] at h; exact absurd h (by simp)
    | some x =>
      rw [hr] at h
      simp only at h
      cases hw : ArrayPtr.write dst d x with
      | none => rw [hw] at h; exact absurd h (by simp)
      | some dst1 =>
        rw [hw] at h
        simp only at h
        obtain ⟨hl, hi⟩ := ArrayPtr.write_length hw
        rcases ih _ _ _ _ h with h0 | hb
        · right
          omega
        · right
          omega

theorem stdMove_bound {src dst r : List α} {last : Nat}
    (h : stdMove src 0 last dst 0 = some r) : last ≤ dst.length := by
  unfold stdMove at h
  rw [if_neg (by omega)] at h
  rcases moveLoop_bound src _ _ _ _ _ h with h0 | hb
  · omega
  · omega

theorem moveLoop_overrun (src : List α) : ∀ (n first : Nat) (dst : List α) (d : Nat),
    d ≤ dst.length → dst.length < d + n → moveLoop src n first dst d = none := by
  intro n
  induction n with
  | zero =>
    intro first dst d h1 h2
    omega
  | succ n ih =>
    intro first dst d h1 h2
    simp only [moveLoop]
    cases hr : ArrayPtr.read src first with
    | none => rfl
    | some x =>
      simp only
      cases hw : ArrayPtr.write dst d x with
      | none => rfl
      | some dst1 =>
        simp only
        obtain ⟨hl, hi⟩ := ArrayPtr.write_length hw
        exact ih _ _ _ (by omega) (by omega)

theorem moveBackwardLoop_length (src : List α) : ∀ (n last : Nat) (dst : List α) (d : Nat)
    (r : List α), moveBackwardLoop src n last dst d = some r → r.length = dst.length := by
  intro n
  induction n with
  | zero =>
    intro last dst d r h
    simp only [moveBackwardLoop, Option.some.injEq] at h
    rw [← h]
  | succ n ih =>
    intro last dst d r h
    simp only [moveBackwardLoop] at h
    by_cases hz : last = 0 ∨ d = 0
    · rw [if_pos hz] at h
      exact absurd h (by simp)
    · rw [if_neg hz] at h
      cases hr : ArrayPtr.read src (last - 1) with
      | none => rw [hr] at h; exact absurd h (by simp)
      | some x =>
        rw [hr] at h
        simp only at h
        cases hw : ArrayPtr.write dst (d - 1) x with
        | none => rw [hw] at h; exact absurd h (by simp)
        | some dst1 =>
          rw [hw] at h
          simp only at h
          rw [ih _ _ _ _ h, (ArrayPtr.write_length hw).1]

theorem stdMoveBackward_length {src dst r : List α} {first last d : Nat}
    (h : stdMoveBackward src first last dst d = some r) : r.length = dst.length := by
  unfold stdMoveBackward at h
  by_cases hl : last < first
  · rw [if_pos hl] at h
    exact absurd h (by simp)
  · rw [if_neg hl] at h
    exact moveBackwardLoop_length src _ _ _ _ _ h

theorem fillLoop_length (value : α) : ∀ (n first : Nat) (dst r : List α),
    fillLoop value n first dst = some r → r.length = dst.length := by
  intro n
  induction n with
  | zero =>
    intro first dst r h
    simp only [fillLoop, Option.some.injEq] at h
    rw [← h]
  | succ n ih =>
    intro first dst r h
    simp only [fillLoop] at h
    cases hw : ArrayPtr.write dst first value with
    | none => rw [hw] at h; exact absurd h (by simp)
    | some dst1 =>
      rw [hw] at h
      simp only at h
      rw [ih _ _ _ h, (ArrayPtr.write_length hw).1]

namespace SimpleVector

theorem RethrowItems_after [Inhabited α] {avail : Nat → Bool} {space : Nat}
    {v : SimpleVector α} :
    (∀ r v1, RethrowItems avail space v = .ret r v1 →
        v1.size_ = v.size_ ∧ v1.capacity_ = v.capacity_ ∧ v1.items_.length = space
        ∧ v.size_ ≤ space)
    ∧ (∀ e s, RethrowItems avail space v = .thrown e s → s = v ∧ e = .bad_alloc) := by
  unfold RethrowItems
  cases hc : (ArrayPtr.create avail space : Option (ArrayPtr α)) with
  | none =>
    simp only
    exact ⟨fun r v1 h => Outcome.noConfusion h,
      fun e s h => by
        simp only [Outcome.thrown.injEq] at h
        exact ⟨h.2.symm, h.1.symm⟩⟩
  | some temp =>
    simp only
    cases hm : stdMove v.items_ 0 v.size_ temp 0 with
    | none =>
      simp only
      exact ⟨fun r v1 h => Outcome.noConfusion h, fun e s h => Outcome.noConfusion h⟩
    | some t1 =>
      simp only
      refine ⟨fun r v1 h => ?_, fun e s h => Outcome.noConfusion h⟩
      simp only [Outcome.ret.injEq] at h
      rw [← h.2]
      refine ⟨rfl, rfl, by simp only; rw [stdMove_length hm, ArrayPtr.create_length hc], ?_⟩
      have hb := stdMove_bound hm
      rw [ArrayPtr.create_length hc] at hb
      exact hb

end SimpleVector

end ShapeLemmas

section InvariantLemmas

variable {α : Type}

namespace SimpleVector

theorem PushBack_after [Inhabited α] {avail : Nat → Bool} {item : α} {v v1 : SimpleVector α}
    (h : (PushBack avail item v).after = some v1) :
    (v.size_ ≤ v.capacity_ → v1.size_ ≤ v1.capacity_)
    ∧ (v.size_ ≤ v.items_.length → v1.size_ ≤ v1.items_.length) := by
  unfold PushBack at h
  by_cases hc : v.size_ < v.capacity_
  · rw [if_pos hc] at h
    cases hw : ArrayPtr.write v.items_ v.size_ item with
    | none => rw [hw] at h; exact absurd h (by simp [Outcome.after])
    | some b =>
      rw [hw] at h
      simp only [Outcome.after, Option.some.injEq] at h
      obtain ⟨hl, hi⟩ := ArrayPtr.write_length hw
      rw [← h]
      exact ⟨fun _ => hc, fun _ => by simp only; omega⟩
  · rw [if_neg hc] at h
    simp only at h
    cases hR : RethrowItems avail (if (!v.IsEmpty) = true then v.capacity_ * 2 else 1) v with
    | ret r v2 =>
      rw [hR] at h
      simp only at h
      obtain ⟨hs2, _, _⟩ := RethrowItems_after.1 r v2 hR
      cases hw : ArrayPtr.write v2.items_ v2.size_ item with
      | none => rw [hw] at h; exact absurd h (by simp [Outcome.after])
      | some b =>
        rw [hw] at h
        simp only [Outcome.after, Option.some.injEq] at h
        obtain ⟨hl, hi⟩ := ArrayPtr.write_length hw
        rw [← h]
        refine ⟨fun hinv => ?_, fun _ => by simp only; omega⟩
        simp only [IsEmpty]
        by_cases h0 : v.size_ = 0
        · simp [h0, hs2]
        · simp only [h0, if_false, Bool.not_false, if_true]
          omega
    | thrown e s =>
      rw [hR] at h
      simp only [Outcome.after, Option.some.injEq] at h
      rw [← h, (RethrowItems_after.2 e s hR).1]
      exact ⟨id, id⟩
    | undefined => rw [hR] at h; exact absurd h (by simp [Outcome.after])
    | aborted => rw [hR] at h; exact absurd h (by simp [Outcome.after])

theorem RethrowItemsFromIterable_after [Inhabited α] {avail : Nat → Bool} {blk : List α}
    {len space : Nat} {v : SimpleVector α} :
    (∀ r v1, RethrowItemsFromIterable avail blk len space v = .ret r v1 →
        v1.size_ = space ∧ v1.capacity_ = space ∧ v1.items_.length = space)
    ∧ (∀ e s, RethrowItemsFromIterable avail blk len space v = .thrown e s →
        s = v ∧ e = .bad_alloc) := by
  unfold RethrowItemsFromIterable
  cases hc : (ArrayPtr.create avail space : Option (ArrayPtr α)) with
  | none =>
    simp only
    exact ⟨fun r v1 h => Outcome.noConfusion h,
      fun e s h => by
        simp only [Outcome.thrown.injEq] at h
        exact ⟨h.2.symm, h.1.symm⟩⟩
  | some temp =>
    simp only
    cases hm : stdMove blk 0 len temp 0 with
    | none =>
      simp only
      exact ⟨fun r v1 h => Outcome.noConfusion h, fun e s h => Outcome.noConfusion h⟩
    | some t1 =>
      simp only
      refine ⟨fun r v1 h => ?_, fun e s h => Outcome.noConfusion h⟩
      simp only [Outcome.ret.injEq] at h
      rw [← h.2]
      exact ⟨rfl, rfl, by simp only; rw [stdMove_length hm, ArrayPtr.create_length hc]⟩

theorem Resize_after [Inhabited α] {avail : Nat → Bool} {n : Nat} {v v1 : SimpleVector α}
    (h : (Resize avail n v).after = some v1) :
    (v.size_ ≤ v.capacity_ → v1.size_ ≤ v1.capacity_)
    ∧ (v.size_ ≤ v.items_.length → v1.size_ ≤ v1.items_.length) := by
  unfold Resize at h
  by_cases hn : n ≤ v.size_
  · rw [if_pos hn] at h
    simp only [Outcome.after, Option.some.injEq] at h
    rw [← h]
    exact ⟨fun _ => by simp only; omega, fun _ => by simp only; omega⟩
  · rw [if_neg hn] at h
    cases hR : RethrowItems avail n v with
    | ret r v2 =>
      rw [hR] at h
      simp only [Outcome.after, Option.some.injEq] at h
      obtain ⟨_, _, hl⟩ := RethrowItems_after.1 r v2 hR
      rw [← h]
      exact ⟨fun _ => Nat.le_refl _, fun _ => by simp only; omega⟩
    | thrown e s =>
      rw [hR] at h
      simp only [Outcome.after, Option.some.injEq] at h
      rw [← h, (RethrowItems_after.2 e s hR).1]
      exact ⟨id, id⟩
    | undefined => rw [hR] at h; exact absurd h (by simp [Outcome.after])
    | aborted => rw [hR] at h; exact absurd h (by simp [Outcome.after])

theorem Reserve_after [Inhabited α] {avail : Nat → Bool} {n : Nat} {v v1 : SimpleVector α}
    (h : (Reserve avail n v).after = some v1) :
    (v.size_ ≤ v.capacity_ → v1.size_ ≤ v1.capacity_)
    ∧ (v.size_ ≤ v.items_.length → v1.size_ ≤ v1.items_.length) := by
  unfold Reserve at h
  by_cases hn : n > v.capacity_
  · rw [if_pos hn] at h
    cases hR : RethrowItems avail n v with
    | ret r v2 =>
      rw [hR] at h
      simp only [Outcome.after, Option.some.injEq] at h
      obtain ⟨hs, _, hl, hle⟩ := RethrowItems_after.1 r v2 hR
      rw [← h]
      exact ⟨fun _ => by simp only; omega, fun _ => by simp only; omega⟩
    | thrown e s =>
      rw [hR] at h
      simp only [Outcome.after, Option.some.injEq] at h
      rw [← h, (RethrowItems_after.2 e s hR).1]
      exact ⟨id, id⟩
    | undefined => rw [hR] at h; exact absurd h (by simp [Outcome.after])
    | aborted => rw [hR] at h; exact absurd h (by simp [Outcome.after])
  · rw [if_neg hn] at h
    simp only [Outcome.after, Option.some.injEq] at h
    rw [← h]
    exact ⟨id, id⟩

theorem Insert_after [Inhabited α] {avail : Nat → Bool} {pos : Nat} {value : α}
    {v v1 : SimpleVector α} (h : (Insert avail pos value v).after = some v1) :
    (v.capacity_ * 2 < sizeModulus → v.size_ ≤ v.capacity_ → v1.size_ ≤ v1.capacity_)
    ∧ (v.size_ ≤ v.items_.length → v1.size_ ≤ v1.items_.length) := by
  unfold Insert at h
  by_cases hp : pos ≤ v.size_
  · rw [if_neg (not_not.mpr hp)] at h
    by_cases hE : v.IsEmpty = true
    · rw [if_pos hE] at h
      suffices hs : (v.size_ ≤ v.capacity_ → v1.size_ ≤ v1.capacity_)
          ∧ (v.size_ ≤ v.items_.length → v1.size_ ≤ v1.items_.length) from
        ⟨fun _ => hs.1, hs.2⟩
      refine @PushBack_after α _ avail value v v1 ?_
      cases hP : PushBack avail value v with
      | ret r v2 => rw [hP] at h; exact h
      | thrown e s => rw [hP] at h; exact h
      | undefined => rw [hP] at h; exact absurd h (by simp [Outcome.after])
      | aborted => rw [hP] at h; exact absurd h (by simp [Outcome.after])
    · rw [if_neg hE] at h
      have hne : v.size_ ≠ 0 := by
        intro h0
        exact hE (by simp [IsEmpty, h0])
      simp only [GetSize] at h
      cases hc : (ArrayPtr.create avail (2 * v.size_) : Option (ArrayPtr α)) with
      | none =>
        rw [hc] at h
        simp only [Outcome.after, Option.some.injEq] at h
        rw [← h]
        exact ⟨fun _ => id, id⟩
      | some temp =>
        rw [hc] at h
        simp only at h
        cases hm : stdMove v.items_ 0 pos temp 0 with
        | none => rw [hm] at h; exact absurd h (by simp [Outcome.after])
        | some t1 =>
          rw [hm] at h
          simp only at h
          cases hw : ArrayPtr.write t1 pos value with
          | none => rw [hw] at h; exact absurd h (by simp [Outcome.after])
          | some t2 =>
            rw [hw] at h
            simp only at h
            cases hb : stdMoveBackward v.items_ pos v.size_ t2 (v.size_ + 1) with
            | none => rw [hb] at h; exact absurd h (by simp [Outcome.after])
            | some t3 =>
              rw [hb] at h
              simp only [Outcome.after, Option.some.injEq] at h
              have hl : t3.length = 2 * v.size_ := by
                rw [stdMoveBackward_length hb, (ArrayPtr.write_length hw).1,
                  stdMove_length hm, ArrayPtr.create_length hc]
              rw [← h]
              refine ⟨fun hw hinv => ?_, fun _ => by simp only; omega⟩
              simp only
              rw [Nat.mod_eq_of_lt hw]
              omega
  · rw [if_pos (by simpa using hp)] at h
    exact absurd h (by simp [Outcome.after])

theorem Erase_after [Inhabited α] {avail : Nat → Bool} {pos : Nat}
    {v v1 : SimpleVector α} (h : (Erase avail pos v).after = some v1) :
    (v.size_ ≤ v.capacity_ → v1.size_ ≤ v1.capacity_)
    ∧ (v.size_ ≤ v.items_.length → v1.size_ ≤ v1.items_.length) := by
  unfold Erase at h
  by_cases hp : pos < v.size_
  · rw [if_neg (not_not.mpr hp)] at h
    simp only [GetSize] at h
    cases hc : (ArrayPtr.create avail (v.size_ - 1) : Option (ArrayPtr α)) with
    | none =>
      rw [hc] at h
      simp only [Outcome.after, Option.some.injEq] at h
      rw [← h]
      exact ⟨id, id⟩
    | some temp =>
      rw [hc] at h
      simp only at h
      cases hm : stdMove v.items_ 0 pos temp 0 with
      | none => rw [hm] at h; exact absurd h (by simp [Outcome.after])
      | some t1 =>
        rw [hm] at h
        simp only at h
        cases hb : stdMoveBackward v.items_ (pos + 1) v.size_ t1 (v.size_ - 1) with
        | none => rw [hb] at h; exact absurd h (by simp [Outcome.after])
        | some t2 =>
          rw [hb] at h
          simp only [Outcome.after, Option.some.injEq] at h
          have hl : t2.length = v.size_ - 1 := by
            rw [stdMoveBackward_length hb, stdMove_length hm, ArrayPtr.create_length hc]
          rw [← h]
          exact ⟨fun _ => by simp only; omega, fun _ => by simp only; omega⟩
  · rw [if_pos hp] at h
    exact absurd h (by simp [Outcome.after])

theorem opIndexAssign_after {index : Nat} {x : α} {v v1 : SimpleVector α}
    (h : (opIndexAssign index x v).after = some v1) :
    (v.size_ ≤ v.capacity_ → v1.size_ ≤ v1.capacity_)
    ∧ (v.size_ ≤ v.items_.length → v1.size_ ≤ v1.items_.length) := by
  unfold opIndexAssign at h
  by_cases hp : index < v.size_
  · rw [if_neg (not_not.mpr hp)] at h
    cases hw : ArrayPtr.write v.items_ index x with
    | none => rw [hw] at h; exact absurd h (by simp [Outcome.after])
    | some b =>
      rw [hw] at h
      simp only [Outcome.after, Option.some.injEq] at h
      rw [← h]
      exact ⟨id, fun hb => by simp only; rw [(ArrayPtr.write_length hw).1]; exact hb⟩
  · rw [if_pos hp] at h
    exact absurd h (by simp [Outcome.after])

theorem copyAssign_after [Inhabited α] {avail : Nat → Bool} {v o v1 o1 : SimpleVector α}
    (h : (copyAssign avail v o).after = some (v1, o1)) :
    o1 = o ∧ (v1 = v ∨ (v1.size_ = o.size_ ∧ v1.capacity_ = o.size_
      ∧ v1.items_.length = o.size_)) := by
  unfold copyAssign at h
  cases hR : RethrowItemsFromIterable avail o.items_ o.size_ o.GetSize v with
  | ret r v2 =>
    rw [hR] at h
    simp only [Outcome.after, Option.some.injEq, Prod.mk.injEq] at h
    obtain ⟨h1, h2, h3⟩ := RethrowItemsFromIterable_after.1 r v2 hR
    rw [← h.1, ← h.2]
    exact ⟨rfl, Or.inr ⟨h1, h2, h3⟩⟩
  | thrown e s =>
    rw [hR] at h
    simp only [Outcome.after, Option.some.injEq, Prod.mk.injEq] at h
    rw [← h.1, ← h.2, (RethrowItemsFromIterable_after.2 e s hR).1]
    exact ⟨rfl, Or.inl rfl⟩
  | undefined => rw [hR] at h; exact absurd h (by simp [Outcome.after])
  | aborted => rw [hR] at h; exact absurd h (by simp [Outcome.after])

theorem copyConstruct_ret [Inhabited α] {avail : Nat → Bool} {o v1 o1 : SimpleVector α}
    (h : copyConstruct avail o = .ret () (v1, o1)) :
    o1 = o ∧ v1.size_ = o.size_ ∧ v1.capacity_ = o.size_ ∧ v1.items_.length = o.size_ := by
  unfold copyConstruct at h
  cases hR : RethrowItemsFromIterable avail o.items_ o.size_ o.GetSize {} with
  | ret r v2 =>
    rw [hR] at h
    simp only [Outcome.ret.injEq, Prod.mk.injEq, true_and] at h
    obtain ⟨h1, h2, h3⟩ := RethrowItemsFromIterable_after.1 r v2 hR
    rw [← h.1, ← h.2]
    exact ⟨rfl, h1, h2, h3⟩
  | thrown e s => rw [hR] at h; exact Outcome.noConfusion h
  | undefined => rw [hR] at h; exact Outcome.noConfusion h
  | aborted => rw [hR] at h; exact Outcome.noConfusion h

theorem moveConstruct_ret [Inhabited α] {avail : Nat → Bool} {o v1 o1 : SimpleVector α}
    (h : moveConstruct avail o = .ret () (v1, o1)) :
    v1.size_ = o.size_ ∧ v1.capacity_ = o.capacity_ ∧ v1.items_.length = o.size_
    ∧ o1 = o.Clear := by
  unfold moveConstruct at h
  simp only [GetSize, GetCapacity] at h
  cases hc : (ArrayPtr.create avail o.size_ : Option (ArrayPtr α)) with
  | none => rw [hc] at h; exact Outcome.noConfusion h
  | some temp =>
    rw [hc] at h
    simp only at h
    cases hm : stdMove o.items_ 0 o.size_ temp 0 with
    | none => rw [hm] at h; exact Outcome.noConfusion h
    | some t1 =>
      rw [hm] at h
      simp only [Outcome.ret.injEq, Prod.mk.injEq, true_and] at h
      rw [← h.1, ← h.2]
      exact ⟨rfl, rfl, by simp only; rw [stdMove_length hm, ArrayPtr.create_length hc], rfl⟩

theorem reserveConstruct_ret [Inhabited α] {avail : Nat → Bool} {n : Nat}
    {v : SimpleVector α} (h : reserveConstruct avail n = .ret () v) :
    v.size_ = 0 := by
  unfold reserveConstruct at h
  cases hR : Reserve avail n ({} : SimpleVector α) with
  | ret r v2 =>
    rw [hR] at h
    simp only [Outcome.ret.injEq, true_and] at h
    rw [← h]
  | thrown e s => rw [hR] at h; exact Outcome.noConfusion h
  | undefined => rw [hR] at h; exact Outcome.noConfusion h
  | aborted => rw [hR] at h; exact Outcome.noConfusion h

theorem sizeConstruct_ret [Inhabited α] {ne : α → α → Bool} {avail : Nat → Bool} {n : Nat}
    {x : α} {v : SimpleVector α} (h : sizeConstruct ne avail n x = .ret () v) :
    v.size_ = n ∧ v.capacity_ = n ∧ v.items_.length = n := by
  unfold sizeConstruct at h
  cases hc : (ArrayPtr.create avail n : Option (ArrayPtr α)) with
  | none => rw [hc] at h; exact Outcome.noConfusion h
  | some temp =>
    rw [hc] at h
    simp only at h
    by_cases hv : ne x default = true
    · rw [if_pos hv] at h
      cases hf : stdFill temp 0 n x with
      | none => rw [hf] at h; exact Outcome.noConfusion h
      | some b =>
        rw [hf] at h
        simp only [Outcome.ret.injEq, true_and] at h
        rw [← h]
        refine ⟨rfl, rfl, ?_⟩
        unfold stdFill at hf
        rw [if_neg (by omega)] at hf
        simp only
        rw [fillLoop_length _ _ _ _ _ hf, ArrayPtr.create_length hc]
    · rw [if_neg hv] at h
      simp only [Outcome.ret.injEq, true_and] at h
      rw [← h]
      exact ⟨rfl, rfl, ArrayPtr.create_length hc⟩

theorem listConstruct_ret [Inhabited α] {avail : Nat → Bool} {init : List α}
    {v : SimpleVector α} (h : listConstruct avail init = .ret () v) :
    v.size_ = init.length ∧ v.capacity_ = init.length ∧ v.items_.length = init.length :=
  RethrowItemsFromIterable_after.1 () v h

end SimpleVector

end InvariantLemmas

section ReachableStates

variable {α : Type}

namespace SimpleVector

theorem PopBack_bounds (v : SimpleVector α) :
    (v.size_ ≤ v.capacity_ → v.PopBack.size_ ≤ v.PopBack.capacity_)
    ∧ (v.size_ ≤ v.items_.length → v.PopBack.size_ ≤ v.PopBack.items_.length) := by
  unfold PopBack
  by_cases hE : (!v.IsEmpty) = true
  · rw [if_pos hE]
    exact ⟨fun h => by simp only; omega, fun h => by simp only; omega⟩
  · rw [if_neg hE]
    exact ⟨id, id⟩

/-- In every reachable state the size is at most the length of the owned block, so the cells
of index `< size_` all lie inside the block. -/
theorem Reachable.size_le_block [Inhabited α] {v : SimpleVector α} (h : Reachable v) :
    v.size_ ≤ v.items_.length := by
  induction h with
  | default_ctor => exact Nat.le_refl _
  | reserve_ctor avail n v h =>
    rw [reserveConstruct_ret h]
    exact Nat.zero_le _
  | size_ctor ne avail n x v h =>
    obtain ⟨h1, h2, h3⟩ := sizeConstruct_ret h
    omega
  | list_ctor avail init v h =>
    obtain ⟨h1, h2, h3⟩ := listConstruct_ret h
    omega
  | copy_ctor avail o v o1 _ h _ =>
    obtain ⟨_, h1, h2, h3⟩ := copyConstruct_ret h
    omega
  | move_ctor_new avail o v o1 _ h ih =>
    obtain ⟨h1, h2, h3, _⟩ := moveConstruct_ret h
    omega
  | move_ctor_source avail o v o1 _ h ih =>
    obtain ⟨_, _, _, h4⟩ := moveConstruct_ret h
    rw [h4]
    exact Nat.zero_le _
  | copy_assign avail v o v1 o1 _ _ h ihv iho =>
    obtain ⟨_, h1 | ⟨h1, h2, h3⟩⟩ := copyAssign_after h
    · rw [h1]
      exact ihv
    · omega
  | push_back avail x v v1 _ h ih => exact (PushBack_after h).2 ih
  | pop_back v _ ih => exact (PopBack_bounds v).2 ih
  | clear v _ ih => exact Nat.zero_le _
  | resize avail n v v1 _ h ih => exact (Resize_after h).2 ih
  | reserve avail n v v1 _ h ih => exact (Reserve_after h).2 ih
  | insert avail pos x v v1 _ h ih => exact (Insert_after h).2 ih
  | erase avail pos v v1 _ h ih => exact (Erase_after h).2 ih
  | assign index x v v1 _ h ih => exact (opIndexAssign_after h).2 ih
  | swap_this v o _ _ _ iho => exact iho
  | swap_other v o _ _ ihv _ => exact ihv

/-- Every reachable state has its live elements inside the block: the iteration over
`[begin(), end())` and every access at an index below the size read cells of the block. -/
theorem Reachable.elems_isSome [Inhabited α] {v : SimpleVector α} (h : Reachable v) :
    ∃ xs, v.elems = some xs ∧ xs.length = v.size_ := by
  refine ⟨v.items_.take v.size_, elems_mk _ _ _ h.size_le_block, ?_⟩
  rw [List.length_take]
  exact Nat.min_eq_left h.size_le_block

/-- What holds of `size <= capacity`: the state every constructor returns has it, and every
public operation that is given states with `size <= capacity` leaves states with
`size <= capacity` (on a return and on a thrown exception alike), `Insert` under the condition
that its product `capacity_ * 2` does not wrap. -/
theorem size_le_capacity_preserved [Inhabited α] :
    (({} : SimpleVector α).GetSize ≤ ({} : SimpleVector α).GetCapacity)
    ∧ (∀ (avail : Nat → Bool) (n : Nat) (v : SimpleVector α),
        reserveConstruct avail n = .ret () v → v.GetSize ≤ v.GetCapacity)
    ∧ (∀ (ne : α → α → Bool) (avail : Nat → Bool) (n : Nat) (x : α) (v : SimpleVector α),
        sizeConstruct ne avail n x = .ret () v → v.GetSize ≤ v.GetCapacity)
    ∧ (∀ (avail : Nat → Bool) (init : List α) (v : SimpleVector α),
        listConstruct avail init = .ret () v → v.GetSize ≤ v.GetCapacity)
    ∧ (∀ (avail : Nat → Bool) (o v o1 : SimpleVector α),
        copyConstruct avail o = .ret () (v, o1) → v.GetSize ≤ v.GetCapacity)
    ∧ (∀ (avail : Nat → Bool) (o v o1 : SimpleVector α), o.GetSize ≤ o.GetCapacity →
        moveConstruct avail o = .ret () (v, o1) →
        v.GetSize ≤ v.GetCapacity ∧ o1.GetSize ≤ o1.GetCapacity)
    ∧ (∀ (avail : Nat → Bool) (v o v1 o1 : SimpleVector α), v.GetSize ≤ v.GetCapacity →
        o.GetSize ≤ o.GetCapacity → (copyAssign avail v o).after = some (v1, o1) →
        v1.GetSize ≤ v1.GetCapacity ∧ o1.GetSize ≤ o1.GetCapacity)
    ∧ (∀ (avail : Nat → Bool) (x : α) (v v1 : SimpleVector α), v.GetSize ≤ v.GetCapacity →
        (PushBack avail x v).after = some v1 → v1.GetSize ≤ v1.GetCapacity)
    ∧ (∀ v : SimpleVector α, v.GetSize ≤ v.GetCapacity →
        v.PopBack.GetSize ≤ v.PopBack.GetCapacity)
    ∧ (∀ v : SimpleVector α, v.GetSize ≤ v.GetCapacity →
        v.Clear.GetSize ≤ v.Clear.GetCapacity)
    ∧ (∀ (avail : Nat → Bool) (n : Nat) (v v1 : SimpleVector α), v.GetSize ≤ v.GetCapacity →
        (Resize avail n v).after = some v1 → v1.GetSize ≤ v1.GetCapacity)
    ∧ (∀ (avail : Nat → Bool) (n : Nat) (v v1 : SimpleVector α), v.GetSize ≤ v.GetCapacity →
        (Reserve avail n v).after = some v1 → v1.GetSize ≤ v1.GetCapacity)
    ∧ (∀ (avail : Nat → Bool) (pos : Nat) (x : α) (v v1 : SimpleVector α),
        v.GetCapacity * 2 < sizeModulus → v.GetSize ≤ v.GetCapacity → pos ≤ v.GetSize →
        (Insert avail pos x v).after = some v1 → v1.GetSize ≤ v1.GetCapacity)
    ∧ (∀ (avail : Nat → Bool) (pos : Nat) (v v1 : SimpleVector α),
        v.GetSize ≤ v.GetCapacity → pos < v.GetSize →
        (Erase avail pos v).after = some v1 → v1.GetSize ≤ v1.GetCapacity)
    ∧ (∀ v o : SimpleVector α, v.GetSize ≤ v.GetCapacity → o.GetSize ≤ o.GetCapacity →
        (swap v o).1.GetSize ≤ (swap v o).1.GetCapacity
        ∧ (swap v o).2.GetSize ≤ (swap v o).2.GetCapacity) := by
  simp only [GetSize, GetCapacity]
  refine ⟨Nat.le_refl _, ?_, ?_, ?_, ?_, ?_, ?_, ?_, ?_, ?_, ?_, ?_, ?_, ?_, ?_⟩
  · intro avail n v h
    rw [reserveConstruct_ret h]
    exact Nat.zero_le _
  · intro ne avail n x v h
    obtain ⟨h1, h2, _⟩ := sizeConstruct_ret h
    omega
  · intro avail init v h
    obtain ⟨h1, h2, _⟩ := listConstruct_ret h
    omega
  · intro avail o v o1 h
    obtain ⟨_, h1, h2, _⟩ := copyConstruct_ret h
    omega
  · intro avail o v o1 ho h
    obtain ⟨h1, h2, _, h4⟩ := moveConstruct_ret h
    rw [h4]
    exact ⟨by omega, Nat.zero_le _⟩
  · intro avail v o v1 o1 hv ho h
    obtain ⟨h0, h1 | ⟨h1, h2, _⟩⟩ := copyAssign_after h
    · rw [h0, h1]
      exact ⟨hv, ho⟩
    · rw [h0]
      exact ⟨by omega, ho⟩
  · intro avail x v v1 hv h
    exact (PushBack_after h).1 hv
  · intro v hv
    exact (PopBack_bounds v).1 hv
  · intro v _
    exact Nat.zero_le _
  · intro avail n v v1 hv h
    exact (Resize_after h).1 hv
  · intro avail n v v1 hv h
    exact (Reserve_after h).1 hv
  · intro avail pos x v v1 hw hv _ h
    exact (Insert_after h).1 hw hv
  · intro avail pos v v1 hv _ h
    exact (Erase_after h).1 hv
  · intro v o hv ho
    exact ⟨ho, hv⟩

end SimpleVector

end ReachableStates

section ScenarioFailureClaims

variable {α : Type}

namespace SimpleVector

/-- C15, as stated: the scenario does not end in the values of the claim, because the
`Insert` of 6 leaves the recorded capacity 4 (and a block of 4 cells), not 6. -/
theorem C15_scenario_capacity_is_not_six :
    ¬ ∃ (v1 v2 v3 : SimpleVector Nat) (r2 r3 : Nat),
      pushAll unlimited [5, 7] {} = .ret () v1
      ∧ v1.GetSize = 2 ∧ v1.GetCapacity = 2 ∧ v1.elems = some [5, 7]
      ∧ Insert unlimited 1 6 v1 = .ret r2 v2
      ∧ v2.elems = some [5, 6, 7] ∧ v2.GetSize = 3 ∧ v2.GetCapacity = 6
      ∧ Erase unlimited 0 v2 = .ret r3 v3
      ∧ v3.elems = some [6, 7] ∧ v3.GetSize = 2 := by
  rintro ⟨v1, v2, v3, r2, r3, h1, _, _, _, h2, _, _, hcap, _⟩
  have e1 : pushAll unlimited [5, 7] ({} : SimpleVector Nat) = .ret () ⟨[5, 7], 2, 2⟩ := by
    decide
  rw [e1] at h1
  simp only [Outcome.ret.injEq, true_and] at h1
  subst h1
  have e2 : Insert unlimited 1 6 (⟨[5, 7], 2, 2⟩ : SimpleVector Nat)
      = .ret 1 ⟨[5, 6, 7, 0], 3, 4⟩ := by decide
  rw [e2] at h2
  simp only [Outcome.ret.injEq] at h2
  rw [← h2.2] at hcap
  exact absurd hcap (by decide)

/-- C15, amended: from the default container, `PushBack(5)` and `PushBack(7)` give size 2,
capacity 2 and the elements 5, 7; `Insert(begin() + 1, 6)` then gives the elements 5, 6, 7,
size 3 and capacity 4; `Erase(begin())` then gives the elements 6, 7 and size 2. -/
theorem C15_scenario :
    ∃ (v1 v2 v3 : SimpleVector Nat) (r2 r3 : Nat),
      pushAll unlimited [5, 7] {} = .ret () v1
      ∧ v1.GetSize = 2 ∧ v1.GetCapacity = 2 ∧ v1.elems = some [5, 7]
      ∧ Insert unlimited 1 6 v1 = .ret r2 v2
      ∧ v2.elems = some [5, 6, 7] ∧ v2.GetSize = 3 ∧ v2.GetCapacity = 4
      ∧ Erase unlimited 0 v2 = .ret r3 v3
      ∧ v3.elems = some [6, 7] ∧ v3.GetSize = 2 :=
  ⟨⟨[5, 7], 2, 2⟩, ⟨[5, 6, 7, 0], 3, 4⟩, ⟨[6, 7], 2, 4⟩, 1, 0, by decide⟩

/-- C16: when the allocation that a reallocating operation asks for fails, the operation ends
with `bad_alloc` and the container (block, size, capacity) is the one it was given: `PushBack`
without spare capacity, `Reserve` and `Resize` beyond the current capacity and size, `Insert`
on a non-empty and on an empty container, `Erase`, and copy assignment. -/
theorem C16_allocation_failure [Inhabited α] (avail : Nat → Bool) (v other : SimpleVector α)
    (item : α) (pos n : Nat) :
    (v.GetCapacity ≤ v.GetSize →
      (ArrayPtr.create avail (if v.GetSize ≠ 0 then v.GetCapacity * 2 else 1)
        : Option (ArrayPtr α)) = none →
      PushBack avail item v = .thrown .bad_alloc v)
    ∧ (v.GetCapacity < n → (ArrayPtr.create avail n : Option (ArrayPtr α)) = none →
      Reserve avail n v = .thrown .bad_alloc v)
    ∧ (v.GetSize < n → (ArrayPtr.create avail n : Option (ArrayPtr α)) = none →
      Resize avail n v = .thrown .bad_alloc v)
    ∧ (pos ≤ v.GetSize → v.GetSize ≠ 0 →
      (ArrayPtr.create avail (2 * v.GetSize) : Option (ArrayPtr α)) = none →
      Insert avail pos item v = .thrown .bad_alloc v)
    ∧ (v.GetSize = 0 → v.GetCapacity = 0 →
      (ArrayPtr.create avail 1 : Option (ArrayPtr α)) = none →
      Insert avail 0 item v = .thrown .bad_alloc v)
    ∧ (pos < v.GetSize →
      (ArrayPtr.create avail (v.GetSize - 1) : Option (ArrayPtr α)) = none →
      Erase avail pos v = .thrown .bad_alloc v)
    ∧ ((ArrayPtr.create avail other.GetSize : Option (ArrayPtr α)) = none →
      copyAssign avail v other = .thrown .bad_alloc (v, other)) := by
  simp only [GetSize, GetCapacity]
  have hpush : v.capacity_ ≤ v.size_ →
      (ArrayPtr.create avail (if v.size_ ≠ 0 then v.capacity_ * 2 else 1)
        : Option (ArrayPtr α)) = none →
      PushBack avail item v = .thrown .bad_alloc v := by
    intro hc ha
    unfold PushBack
    rw [if_neg (by omega)]
    have hn : (if (!v.IsEmpty) = true then v.capacity_ * 2 else 1)
        = (if v.size_ ≠ 0 then v.capacity_ * 2 else 1) := by
      unfold IsEmpty
      by_cases h0 : v.size_ = 0 <;> simp [h0]
    simp only [hn, RethrowItems, ha]
  refine ⟨hpush, ?_, ?_, ?_, ?_, ?_, ?_⟩
  · intro hn ha
    unfold Reserve
    rw [if_pos hn]
    simp only [RethrowItems, ha]
  · intro hn ha
    unfold Resize
    rw [if_neg (by omega)]
    simp only [RethrowItems, ha]
  · intro hp hne ha
    unfold Insert
    rw [if_neg (by omega)]
    have hE : v.IsEmpty = false := by simp [IsEmpty, hne]
    simp only [hE, GetSize, ha, Bool.false_eq_true, if_false]
  · intro hz hc ha
    unfold Insert
    rw [if_neg (by omega)]
    have hE : v.IsEmpty = true := by simp [IsEmpty, hz]
    simp only [hE, if_true]
    rw [hpush (by omega) (by simpa [hz] using ha)]
  · intro hp ha
    unfold Erase
    rw [if_neg (by omega)]
    simp only [GetSize, ha]
  · intro ha
    unfold copyAssign
    simp only [RethrowItemsFromIterable, GetSize, ha]

/-- Witness of C16: every operation on the container holding 5, 7 (capacity 2), and `Insert`
on the default container, with an allocator that serves no request. -/
theorem C16_allocation_failure_witness :
    PushBack exhausted 9 (⟨[5, 7], 2, 2⟩ : SimpleVector Nat) = .thrown .bad_alloc ⟨[5, 7], 2, 2⟩
    ∧ Reserve exhausted 5 (⟨[5, 7], 2, 2⟩ : SimpleVector Nat)
        = .thrown .bad_alloc ⟨[5, 7], 2, 2⟩
    ∧ Resize exhausted 5 (⟨[5, 7], 2, 2⟩ : SimpleVector Nat)
        = .thrown .bad_alloc ⟨[5, 7], 2, 2⟩
    ∧ Insert exhausted 1 9 (⟨[5, 7], 2, 2⟩ : SimpleVector Nat)
        = .thrown .bad_alloc ⟨[5, 7], 2, 2⟩
    ∧ Insert exhausted 0 9 ({} : SimpleVector Nat) = .thrown .bad_alloc {}
    ∧ Erase exhausted 1 (⟨[5, 7], 2, 2⟩ : SimpleVector Nat)
        = .thrown .bad_alloc ⟨[5, 7], 2, 2⟩
    ∧ copyAssign exhausted (⟨[5, 7], 2, 2⟩ : SimpleVector Nat) ⟨[1, 0], 1, 2⟩
        = .thrown .bad_alloc (⟨[5, 7], 2, 2⟩, ⟨[1, 0], 1, 2⟩) :=
  ⟨(C16_allocation_failure exhausted ⟨[5, 7], 2, 2⟩ {} 9 1 5).1 (by decide) (by decide),
   (C16_allocation_failure exhausted ⟨[5, 7], 2, 2⟩ {} 9 1 5).2.1 (by decide) (by decide),
   (C16_allocation_failure exhausted ⟨[5, 7], 2, 2⟩ {} 9 1 5).2.2.1 (by decide) (by decide),
   (C16_allocation_failure exhausted ⟨[5, 7], 2, 2⟩ {} 9 1 5).2.2.2.1 (by decide) (by decide)
     (by decide),
   (C16_allocation_failure exhausted {} {} 9 1 5).2.2.2.2.1 (by decide) (by decide)
     (by decide),
   (C16_allocation_failure exhausted ⟨[5, 7], 2, 2⟩ {} 9 1 5).2.2.2.2.2.1 (by decide)
     (by decide),
   (C16_allocation_failure exhausted ⟨[5, 7], 2, 2⟩ ⟨[1, 0], 1, 2⟩ 9 1 5).2.2.2.2.2.2
     (by decide)⟩

/-- PushBack on a container whose recorded capacity is the length of its block: the call
returns, the value is appended after the live elements, the size grows by one, the capacity
stays when there was spare capacity and becomes `max 1 (2 * capacity)` when there was none,
and the recorded capacity again is the length of the block. -/
theorem PushBack_spec [Inhabited α] (avail : Nat → Bool) (ha : ∀ n, avail n = true)
    (item : α) (v : SimpleVector α) (xs : List α) (hx : v.elems = some xs)
    (hinv : v.GetSize ≤ v.GetCapacity) (hcons : v.items_.length = v.GetCapacity) :
    ∃ v1 : SimpleVector α, PushBack avail item v = .ret () v1
      ∧ v1.elems = some (xs ++ [item]) ∧ v1.GetSize = v.GetSize + 1
      ∧ (v.GetSize < v.GetCapacity → v1.GetCapacity = v.GetCapacity)
      ∧ (v.GetSize = v.GetCapacity → v1.GetCapacity = max 1 (2 * v.GetCapacity))
      ∧ v1.items_.length = v1.GetCapacity := by
  obtain ⟨hb, htk, hl⟩ := elems_eq_some hx
  simp only [GetSize, GetCapacity] at hinv hcons ⊢
  by_cases hc : v.size_ < v.capacity_
  · refine ⟨_, PushBack_spare avail item v hc (by omega), ?_, rfl, fun _ => rfl,
      fun h => by omega, by simpa using hcons⟩
    rw [elems_mk _ _ _ (by simp; omega), take_succ_set _ _ _ (by omega), htk]
  · have hnew : v.size_ < (if v.size_ ≠ 0 then v.capacity_ * 2 else 1) := by
      by_cases h0 : v.size_ = 0
      · simp [h0]
      · simp only [ne_eq, h0, not_false_eq_true, if_true]
        omega
    refine ⟨_, PushBack_grow avail item v _ rfl hc hb hnew (ha _), ?_, rfl,
      fun h => absurd h hc, fun h => ?_, ?_⟩
    · rw [htk]
      have e : xs ++ item :: List.replicate
          ((if v.size_ ≠ 0 then v.capacity_ * 2 else 1) - v.size_ - 1) default
          = (xs ++ [item]) ++ List.replicate
          ((if v.size_ ≠ 0 then v.capacity_ * 2 else 1) - v.size_ - 1) default := by simp
      rw [e]
      exact elems_append _ _ _ _ (by simp; omega)
    · simp only
      by_cases h0 : v.size_ = 0
      · have : v.capacity_ = 0 := by omega
        simp [h0, this]
      · simp only [ne_eq, h0, not_false_eq_true, if_true]
        omega
    · simp only [List.length_append, List.length_take, List.length_cons,
        List.length_replicate]
      omega

/-- C17: on the container left by three `PushBack` calls and `Erase(begin())` (size 2,
recorded capacity 4, a block of 2 cells), `size <= capacity` holds and `PushBack(9)` takes the
branch `size_ < capacity_` and writes cell 2, which is outside the block. -/
theorem C17_pushback_after_erase_writes_outside_block :
    pushAll unlimited [1, 2, 3] ({} : SimpleVector Nat) = .ret () ⟨[1, 2, 3, 0], 3, 4⟩
    ∧ Erase unlimited 0 (⟨[1, 2, 3, 0], 3, 4⟩ : SimpleVector Nat) = .ret 0 ⟨[2, 3], 2, 4⟩
    ∧ (⟨[2, 3], 2, 4⟩ : SimpleVector Nat).GetSize ≤ (⟨[2, 3], 2, 4⟩ : SimpleVector Nat).GetCapacity
    ∧ (⟨[2, 3], 2, 4⟩ : SimpleVector Nat).elems = some [2, 3]
    ∧ PushBack unlimited 9 (⟨[2, 3], 2, 4⟩ : SimpleVector Nat) = .undefined := by
  decide

theorem reachable_pushed_one : Reachable (⟨[5], 1, 1⟩ : SimpleVector Nat) :=
  Reachable.push_back unlimited 5 {} _ Reachable.default_ctor (by decide)

theorem reachable_pushed_three : Reachable (⟨[1, 2, 3, 0], 3, 4⟩ : SimpleVector Nat) :=
  Reachable.push_back unlimited 3 ⟨[1, 2], 2, 2⟩ _
    (Reachable.push_back unlimited 2 ⟨[1], 1, 1⟩ _
      (Reachable.push_back unlimited 1 {} _ Reachable.default_ctor (by decide)) (by decide))
    (by decide)

/-- C19: the state left by `PushBack(5)` then `Erase(begin())` is reachable, its recorded
capacity is 1 and it owns no block; so is the state a move construction from a container built
with the reservation hint 3 gives: recorded capacity 3 and no block. -/
theorem C19_positive_capacity_without_block :
    Erase unlimited 0 (⟨[5], 1, 1⟩ : SimpleVector Nat) = .ret 0 ⟨[], 0, 1⟩
    ∧ Reachable (⟨[], 0, 1⟩ : SimpleVector Nat)
    ∧ ¬ (0 < (⟨[], 0, 1⟩ : SimpleVector Nat).GetCapacity
          ↔ (⟨[], 0, 1⟩ : SimpleVector Nat).items_ ≠ [])
    ∧ reserveConstruct unlimited 3 = .ret () (⟨[0, 0, 0], 0, 3⟩ : SimpleVector Nat)
    ∧ moveConstruct unlimited (⟨[0, 0, 0], 0, 3⟩ : SimpleVector Nat)
        = .ret () (⟨[], 0, 3⟩, ⟨[0, 0, 0], 0, 3⟩)
    ∧ Reachable (⟨[], 0, 3⟩ : SimpleVector Nat)
    ∧ ¬ (0 < (⟨[], 0, 3⟩ : SimpleVector Nat).GetCapacity
          ↔ (⟨[], 0, 3⟩ : SimpleVector Nat).items_ ≠ []) := by
  refine ⟨by decide, ?_, by decide, by decide, by decide, ?_, by decide⟩
  · exact Reachable.erase unlimited 0 ⟨[5], 1, 1⟩ _ reachable_pushed_one (by decide)
  · exact Reachable.move_ctor_new unlimited ⟨[0, 0, 0], 0, 3⟩ _ ⟨[0, 0, 0], 0, 3⟩
      (Reachable.reserve_ctor unlimited 3 _ (by decide)) (by decide)

/-- C20: three reachable states whose recorded capacity is not the length of the owned block:
after `Erase` (capacity 4, 2 cells), after `Insert` (capacity 8, 6 cells) and after a move
construction (capacity 4, 3 cells); in the first one `PushBack` finds `size_ < capacity_` and
writes cell 2, outside the block. -/
theorem C20_capacity_differs_from_block_length :
    Reachable (⟨[2, 3], 2, 4⟩ : SimpleVector Nat)
    ∧ (⟨[2, 3], 2, 4⟩ : SimpleVector Nat).GetCapacity
        ≠ (⟨[2, 3], 2, 4⟩ : SimpleVector Nat).items_.length
    ∧ (⟨[2, 3], 2, 4⟩ : SimpleVector Nat).GetSize < (⟨[2, 3], 2, 4⟩ : SimpleVector Nat).GetCapacity
    ∧ ArrayPtr.write (⟨[2, 3], 2, 4⟩ : SimpleVector Nat).items_
        (⟨[2, 3], 2, 4⟩ : SimpleVector Nat).GetSize 9 = none
    ∧ PushBack unlimited 9 (⟨[2, 3], 2, 4⟩ : SimpleVector Nat) = .undefined
    ∧ Reachable (⟨[9, 1, 2, 3, 0, 0], 4, 8⟩ : SimpleVector Nat)
    ∧ (⟨[9, 1, 2, 3, 0, 0], 4, 8⟩ : SimpleVector Nat).GetCapacity
        ≠ (⟨[9, 1, 2, 3, 0, 0], 4, 8⟩ : SimpleVector Nat).items_.length
    ∧ Reachable (⟨[1, 2, 3], 3, 4⟩ : SimpleVector Nat)
    ∧ (⟨[1, 2, 3], 3, 4⟩ : SimpleVector Nat).GetCapacity
        ≠ (⟨[1, 2, 3], 3, 4⟩ : SimpleVector Nat).items_.length := by
  refine ⟨?_, by decide, by decide, by decide, by decide, ?_, by decide, ?_, by decide⟩
  · exact Reachable.erase unlimited 0 ⟨[1, 2, 3, 0], 3, 4⟩ _ reachable_pushed_three (by decide)
  · exact Reachable.insert unlimited 0 9 ⟨[1, 2, 3, 0], 3, 4⟩ _ reachable_pushed_three
      (by decide)
  · exact Reachable.move_ctor_new unlimited ⟨[1, 2, 3, 0], 3, 4⟩ _ ⟨[1, 2, 3, 0], 0, 4⟩
      reachable_pushed_three (by decide)

end SimpleVector

end ScenarioFailureClaims

section CapacityWrap

variable {α : Type}

namespace SimpleVector

/-- Reserve on a container: the state is returned as it was when `newCapacity <= capacity`;
otherwise, when the size is at most `newCapacity`, the call returns with a block of exactly
`newCapacity` cells, capacity `newCapacity`, and the size and the live elements it had; the
constructor from a reservation hint `n` returns size 0, capacity `n` and a block of `n`
cells. -/
theorem Reserve_spec [Inhabited α] (avail : Nat → Bool) (ha : ∀ n, avail n = true)
    (newCapacity n : Nat) (v : SimpleVector α) :
    (newCapacity ≤ v.GetCapacity → Reserve avail newCapacity v = .ret () v)
    ∧ (∀ xs, v.elems = some xs → v.GetSize ≤ newCapacity → v.GetCapacity < newCapacity →
        ∃ v1 : SimpleVector α, Reserve avail newCapacity v = .ret () v1
          ∧ v1.GetCapacity = newCapacity ∧ v1.items_.length = newCapacity
          ∧ v1.GetSize = v.GetSize ∧ v1.elems = some xs)
    ∧ (∃ v0 : SimpleVector α, reserveConstruct avail n = .ret () v0
          ∧ v0.GetSize = 0 ∧ v0.GetCapacity = n ∧ v0.items_.length = n) := by
  simp only [GetSize, GetCapacity]
  refine ⟨?_, ?_, ?_⟩
  · intro h
    unfold Reserve
    rw [if_neg (by omega)]
  · intro xs hx hs hn
    obtain ⟨hb, htk, hl⟩ := elems_eq_some hx
    refine ⟨_, Reserve_grow_eq avail newCapacity v hn (ha _) hb hs, rfl, ?_, rfl, ?_⟩
    · simp only [List.length_append, List.length_take, List.length_replicate]
      omega
    · rw [htk]
      exact elems_append xs _ _ _ hl.symm
  · unfold reserveConstruct
    by_cases h0 : n = 0
    · subst h0
      exact ⟨{}, by simp [Reserve], rfl, rfl, rfl⟩
    · rw [Reserve_grow_eq avail n {} (by simp; omega) (ha _) (by simp) (by simp)]
      exact ⟨_, rfl, rfl, rfl, by simp⟩

/-- Reserve with a new capacity above the recorded capacity and below the size: the live
elements are moved into a block that is too short for them. -/
theorem Reserve_overrun [Inhabited α] (avail : Nat → Bool) (n : Nat) (v : SimpleVector α)
    (ha : avail n = true) (hc : v.capacity_ < n) (hs : n < v.size_) :
    Reserve avail n v = .undefined := by
  unfold Reserve
  rw [if_pos hc]
  unfold RethrowItems
  rw [ArrayPtr.create_eq avail n (Or.inr ha)]
  simp only
  have hm : stdMove v.items_ 0 v.size_ (List.replicate n (default : α)) 0 = none := by
    unfold stdMove
    rw [if_neg (by omega)]
    exact moveLoop_overrun _ _ _ _ _ (Nat.zero_le _) (by simp; omega)
  rw [hm]

/-- Calls of `Insert(begin(), x)` in a row on a non-empty container: they all return, each one
adds one element and doubles the recorded capacity modulo `sizeModulus`, and the last one
leaves a block twice as long as the size it found. -/
theorem insertAll_spec [Inhabited α] (avail : Nat → Bool) (ha : ∀ n, avail n = true) :
    ∀ (xs : List α) (v : SimpleVector α), v.size_ ≠ 0 → v.size_ ≤ v.items_.length →
      v.capacity_ < sizeModulus →
      ∃ v1 : SimpleVector α, insertAll avail xs v = .ret () v1
        ∧ v1.size_ = v.size_ + xs.length
        ∧ v1.capacity_ = (v.capacity_ * 2 ^ xs.length) % sizeModulus
        ∧ (xs ≠ [] → v1.items_.length = 2 * (v.size_ + xs.length - 1))
        ∧ (Reachable v → Reachable v1) := by
  intro xs
  induction xs with
  | nil =>
    intro v _ _ hc
    exact ⟨v, rfl, rfl, by simp [Nat.mod_eq_of_lt hc], fun h => absurd rfl h, id⟩
  | cons x xs ih =>
    intro v hne hb hc
    have hI := Insert_eq avail 0 x v (Nat.zero_le _) hne hb (ha _)
    have hlen : ((v.items_.take v.size_).take 0 ++ x :: (v.items_.take v.size_).drop 0
        ++ List.replicate (v.size_ - 1) default).length = 2 * v.size_ := by
      simp only [List.take_zero, List.drop_zero, List.nil_append, List.length_cons,
        List.length_append, List.length_take, List.length_replicate]
      omega
    obtain ⟨v1, h1, h2, h3, h4, h5⟩ := ih
      { items_ := (v.items_.take v.size_).take 0 ++ x :: (v.items_.take v.size_).drop 0
          ++ List.replicate (v.size_ - 1) default,
        size_ := v.size_ + 1, capacity_ := (v.capacity_ * 2) % sizeModulus }
      (by simp) (by rw [hlen]; simp only; omega)
      (Nat.mod_lt _ (by unfold sizeModulus; exact Nat.pos_pow_of_pos 64 (by decide)))
    refine ⟨v1, ?_, ?_, ?_, ?_, ?_⟩
    · simp only [insertAll, hI]
      exact h1
    · rw [h2]
      simp only [List.length_cons]
      omega
    · rw [h3]
      simp only [List.length_cons]
      rw [Nat.mul_mod, Nat.mod_mod, ← Nat.mul_mod, Nat.pow_succ]
      congr 1
      ring
    · intro _
      by_cases hx : xs = []
      · subst hx
        simp only [insertAll, Outcome.ret.injEq, true_and] at h1
        rw [← h1]
        simp only [List.length_cons, List.length_nil]
        rw [hlen]
        omega
      · rw [h4 hx]
        simp only [List.length_cons]
        omega
    · intro hr
      apply h5
      exact Reachable.insert avail 0 x v _ hr (by rw [hI]; rfl)

/-- The state the program is in after `PushBack(1)` and 64 calls of `Insert(begin(), 0)`: 65
elements, a block of 128 cells, and a recorded capacity that has wrapped to 0. -/
theorem insert_wraps_capacity :
    ∃ v : SimpleVector Nat, insertAll unlimited (List.replicate 64 0) ⟨[1], 1, 1⟩ = .ret () v
      ∧ Reachable v ∧ v.size_ = 65 ∧ v.capacity_ = 0 ∧ v.items_.length = 128 := by
  obtain ⟨v, h1, h2, h3, h4, h5⟩ := insertAll_spec unlimited (fun _ => rfl)
    (List.replicate 64 (0 : Nat)) ⟨[1], 1, 1⟩ (by decide) (by decide)
    (by unfold sizeModulus; decide)
  refine ⟨v, h1, ?_, ?_, ?_, ?_⟩
  · exact h5 (Reachable.push_back unlimited 1 {} _ Reachable.default_ctor (by decide))
  · rw [h2]
    simp
  · rw [h3]
    simp [sizeModulus]
  · rw [h4 (by simp)]
    simp

/-- C13: on the container left by `PushBack(1)` and 64 calls of `Insert(begin(), 0)` (65
elements, recorded capacity wrapped to 0), `Reserve(1)` and `Reserve(64)` ask for more than
the recorded capacity, allocate a block shorter than the size and move the 65 elements into
it: the writes leave the block. -/
theorem C13_reserve_below_size_writes_outside_block :
    pushAll unlimited [1] ({} : SimpleVector Nat) = .ret () ⟨[1], 1, 1⟩
    ∧ ∃ v : SimpleVector Nat,
        insertAll unlimited (List.replicate 64 0) ⟨[1], 1, 1⟩ = .ret () v
        ∧ Reachable v ∧ v.GetSize = 65 ∧ v.GetCapacity = 0
        ∧ Reserve unlimited 1 v = .undefined
        ∧ Reserve unlimited 64 v = .undefined := by
  obtain ⟨v, h1, h2, h3, h4, _⟩ := insert_wraps_capacity
  refine ⟨by decide, v, h1, h2, h3, h4, ?_, ?_⟩
  · exact Reserve_overrun unlimited 1 v rfl (by omega) (by omega)
  · exact Reserve_overrun unlimited 64 v rfl (by omega) (by omega)

end SimpleVector

end CapacityWrap
